import Mathlib

/-! # VDXF name parsing and identifier derivation (`src/pbaas/vdxf.cpp`)

A shallow embedding of `TrimLeading`, `TrimTrailing`, `TrimSpaces`, `ParseSubNames`,
`CVDXF::CleanName`, the two overloads of `CVDXF::GetID` and `CVDXF::GetDataKey`.

Conventions of the embedding:

* a `std::string` is the list of its bytes (`Str`); `uint160` and `uint256` are the lists
  of the bytes between `begin()` and `end()` (`Blob`);
* reference parameters that a function writes (`ChainOut`, `Parent`) are passed in and
  returned;
* `Hash` and `Hash160` (hash.h), `VERUS_CHAINNAME`, `VERUS_CHAINID` and
  `KOMODO_ASSETCHAIN_MAXLEN` are not defined in vdxf.cpp and are parameters;
* an access outside the bounds of a `std::vector` is undefined behaviour and is modelled
  as the result `none`;
* sizes of strings and vectors fit the `int` loop counters of the source;
* `char` is signed, as on x86-64: a `char` of a string and an `unsigned char` argument
  are both promoted to `int` before they are compared (`charNe`).
-/

set_option maxRecDepth 100000

namespace VDXF

/-! ## Data model -/

/-- A `std::string`, as the sequence of its bytes. -/
abbrev Str := List Nat

/-- A fixed-width blob (`uint160`, `uint256`), as the sequence of its bytes. -/
abbrev Blob := List Nat

/-- The bytes of an ASCII string literal. -/
def lit (s : String) : Str := s.toList.map Char.toNat

/-- Method `base_blob::IsNull`: every byte is zero. -/
def IsNull (b : Blob) : Bool := b.all (fun x => x == 0)

/-- A default-constructed `uint160`: twenty zero bytes. -/
def nullUint160 : Blob := List.replicate 20 0

/-- The two hash primitives that vdxf.cpp takes from hash.h, which is not part of the
sources, as parameters. `Hash` is the 256-bit hash of a byte range; the four-iterator
overload `Hash(b1, e1, b2, e2)` hashes the two ranges one after the other, that is
`Hash (r1 ++ r2)` (the specification writes `Hash256(parent.bytes ++ d.bytes)`).
`Hash160` is the 160-bit hash of a byte range. -/
structure HashPrims where
  Hash : List Nat → Blob
  Hash160 : List Nat → Blob

/-- The names that vdxf.cpp takes from headers that are not part of the sources, as
parameters: the root chain name and identifier, the macro `KOMODO_ASSETCHAIN_MAXLEN` (a
positive `int` constant), and the default values that the declarations of `ParseSubNames`
and `CleanName` give to their `displayfilter` parameters. -/
structure Ctx where
  VERUS_CHAINNAME : Str
  VERUS_CHAINID : Blob
  KOMODO_ASSETCHAIN_MAXLEN : Nat
  maxlen_pos : 0 < KOMODO_ASSETCHAIN_MAXLEN
  maxlen_int : KOMODO_ASSETCHAIN_MAXLEN < 2 ^ 31
  ParseSubNames_displayfilter : Bool
  CleanName_displayfilter : Bool

/-- Modelled from the spec: the declaration of `ParseSubNames` (vdxf.h), which gives the
default value of its parameter `addVerus`, is not part of the sources; the spec states
that `CleanName` canonicalizes with `addRootSuffix = false`. -/
def ParseSubNames_addVerus : Bool := false

/-- The global `DATA_KEY_SEPARATOR = "::"`. -/
def DATA_KEY_SEPARATOR : Str := [58, 58]

/-! ## Library primitives -/

/-- One byte under `boost::to_lower_copy` in the classic locale: `A`..`Z` become `a`..`z`. -/
def tolower (c : Nat) : Nat := if 65 ≤ c ∧ c ≤ 90 then c + 32 else c

/-- Function `boost::to_lower_copy` on a string. -/
def to_lower_copy (s : Str) : Str := s.map tolower

/-- Function `boost::split(out, s, boost::is_any_of(sep))` for a single separator byte, without
token compression: the pieces between separators, empty pieces included; an input with
`k` separators gives `k + 1` pieces. -/
def split (sep : Nat) : Str → List Str
  | [] => [[]]
  | c :: cs =>
    if c = sep then [] :: split sep cs
    else
      match split sep cs with
      | [] => [[c]]
      | t :: ts => (c :: t) :: ts

/-- Method `std::vector::back()`; only called on vectors known to be non-empty. -/
def back (v : List Str) : Str := v.getLastD []

/-- Function `strlen`: the number of bytes before the first NUL byte. -/
def strlen (s : Str) : Nat := (s.takeWhile (fun c => c != 0)).length

/-- Conversion of an integer to `size_t` (64 bits, wrap-around). -/
def size_t (x : Int) : Nat := (x % 2 ^ 64).toNat

/-- Method `std::string::resize(n)`: cut to `n` bytes, or pad with NUL bytes up to `n`. -/
def resize (s : Str) (n : Nat) : Str := s.take n ++ List.replicate (n - s.length) 0

/-! ## TrimLeading, TrimTrailing, TrimSpaces -/

/-- The comparison `c != ch` of a `char` `c` of a string with the `unsigned char ch`. Both
are promoted to `int`; with `char` signed, as on x86-64, a byte of 128 or more is a
negative `char` and differs from every `unsigned char`, so the two are equal only when
they are the same byte below 128. -/
def charNe (c ch : Nat) : Bool := !(c == ch && decide (ch < 128))

/-- The loop of `TrimLeading`: the final value of `removeSpaces`, the index of the first
byte that compares different from `ch` (the size when there is none). -/
def TrimLeading.removeSpaces (ch : Nat) : Str → Nat
  | [] => 0
  | c :: rest => if charNe c ch then 0 else TrimLeading.removeSpaces ch rest + 1

/-- Function `TrimLeading(Name, ch)`: `Name` without its leading bytes that compare equal
to `ch`. -/
def TrimLeading (Name : Str) (ch : Nat) : Str :=
  let removeSpaces := TrimLeading.removeSpaces ch Name
  if removeSpaces ≠ 0 then Name.drop removeSpaces else Name

/-- The loop of `TrimTrailing`, entered with `removeSpaces = k - 1`: the final value of the
`int removeSpaces`, the index of the last byte that compares different from `ch`, or
`-1`. -/
def TrimTrailing.removeSpaces (nameCopy : Str) (ch : Nat) : Nat → Int
  | 0 => -1
  | k + 1 =>
    if charNe (nameCopy.getD k 0) ch then (k : Int)
    else TrimTrailing.removeSpaces nameCopy ch k

/-- Function `TrimTrailing(Name, ch)`; the argument of `resize` is computed in `size_t`. -/
def TrimTrailing (Name : Str) (ch : Nat) : Str :=
  let removeSpaces := TrimTrailing.removeSpaces Name ch Name.length
  resize Name
    (size_t ((Name.length : Int) - size_t (size_t ((Name.length : Int) - 1) - size_t removeSpaces)))

/-- Function `TrimSpaces(Name)`. -/
def TrimSpaces (Name : Str) : Str := TrimTrailing (TrimLeading Name 32) 32

/-! ## ParseSubNames -/

/-- The string `invalidChars` of `ParseSubNames`: `\ / : * ? " < > |`, and with
`displayfilter` also `\n \t \r \b \t \v \f \x1B`. -/
def invalidChars (displayfilter : Bool) : Str :=
  [92, 47, 58, 42, 63, 34, 60, 62, 124] ++
    (if displayfilter then [10, 9, 13, 8, 9, 11, 12, 27] else [])

/-- The `addVerus` step on a list of names: append the lowercased chain name when the last
name is non-empty and differs from it, drop the last name when it is empty. -/
def addVerusStep (verusChainName : Str) (names : List Str) : List Str :=
  let lastName := to_lower_copy (back names)
  if lastName ≠ [] ∧ lastName ≠ verusChainName then names ++ [verusChainName]
  else if lastName = [] then names.dropLast
  else names

/-- The validation loop of `ParseSubNames` over `retNames`: each name is cut to
`KOMODO_ASSETCHAIN_MAXLEN - 1` bytes; an empty name or one with a leading or trailing
space makes the function return the empty vector (`none` here). -/
def checkSubNames (cfg : Ctx) : List Str → Option (List Str)
  | [] => some []
  | n :: rest =>
    let n1 :=
      if n.length > cfg.KOMODO_ASSETCHAIN_MAXLEN - 1 then
        n.take (cfg.KOMODO_ASSETCHAIN_MAXLEN - 1)
      else n
    if n1.length = 0 ∨ n1 ≠ TrimTrailing (TrimLeading n1 32) 32 then none
    else (checkSubNames cfg rest).map (fun ns => n1 :: ns)

/-- The loop that builds the implicit chain name from `retNames[1..]`. -/
def joinChain (ChainOut : Str) : List Str → Str
  | [] => ChainOut
  | n :: rest =>
    joinChain ((if ChainOut.length ≠ 0 then ChainOut ++ [46] else ChainOut) ++ n) rest

/-- Function `ParseSubNames(Name, ChainOut, displayfilter, addVerus)`: the returned vector and the
value of `ChainOut` after the call. (With `addVerus` and an explicit chain, the source
also computes a local `chainOutNames`, which it never uses.) -/
def ParseSubNames (cfg : Ctx) (Name : Str) (ChainOut : Str) (displayfilter addVerus : Bool) :
    List Str × Str :=
  if Name.any (fun c => (invalidChars displayfilter).contains c) then ([], ChainOut)
  else
    let retNames := split 64 Name
    if retNames.length = 0 ∨ retNames.length > 2 then ([], ChainOut)
    else
      let explicitChain := decide (retNames.length = 2)
      let ChainOut1 := if explicitChain then retNames.getD 1 [] else ChainOut
      let nameCopy := retNames.headD []
      let retNames1 := split 46 nameCopy
      let verusChainName := to_lower_copy cfg.VERUS_CHAINNAME
      let retNames2 := if addVerus then addVerusStep verusChainName retNames1 else retNames1
      match checkSubNames cfg retNames2 with
      | none => ([], ChainOut1)
      | some retNames3 =>
        if !explicitChain ∧ retNames3.length ≠ 0 then
          if retNames3.length = 1 ∧ back retNames3 ≠ verusChainName then
            (retNames3, retNames3.headD [])
          else
            (retNames3, joinChain ChainOut1 (retNames3.drop 1))
        else (retNames3, ChainOut1)

/-! ## CleanName, GetID, GetDataKey -/

/-- One iteration of the loop of `CleanName` on the name `subNames[i]`: the new `Parent`.
With a null `Parent` the whole string is hashed, otherwise the bytes up to `strlen`. -/
def CleanName.step (H : HashPrims) (Parent : Blob) (subName : Str) : Blob :=
  let parentNameStr := to_lower_copy subName
  let idHash :=
    if IsNull Parent then H.Hash parentNameStr
    else H.Hash (Parent ++ H.Hash (parentNameStr.take (strlen parentNameStr)))
  H.Hash160 idHash

/-- The loop `for (int i = subNames.size() - 1; i > 0; i--)` of `CleanName`, entered with
`i = k`: the final `Parent`. -/
def CleanName.loop (H : HashPrims) (subNames : List Str) : Nat → Blob → Blob
  | 0, Parent => Parent
  | i + 1, Parent => CleanName.loop H subNames i (CleanName.step H Parent (subNames.getD (i + 1) []))

/-- The vector `subNames` that `CleanName` gets from its call `ParseSubNames(Name, chainName)`:
`chainName` is a fresh empty string and both flags take their default values. -/
def CleanName.subNames (cfg : Ctx) (Name : Str) : List Str :=
  (ParseSubNames cfg Name [] cfg.ParseSubNames_displayfilter ParseSubNames_addVerus).1

/-- The body of `CleanName` after the call of `ParseSubNames`: the returned string and the
value of `Parent` after the call; `none` when `subNames[0]` is read from an empty vector. -/
def CleanName.body (H : HashPrims) (cfg : Ctx) (subNames : List Str) (Parent : Blob) :
    Option (Str × Blob) :=
  if subNames.length = 0 then some ([], Parent)
  else
    let subNames1 :=
      if !IsNull Parent ∧ to_lower_copy (back subNames) = to_lower_copy cfg.VERUS_CHAINNAME then
        subNames.dropLast
      else subNames
    let Parent1 := CleanName.loop H subNames1 (subNames1.length - 1) Parent
    match subNames1 with
    | [] => none
    | n0 :: _ => some (n0, Parent1)

/-- Function `CVDXF::CleanName(Name, Parent, displayfilter)`; the parameter `displayfilter` is not
used by the source. -/
def CleanName (H : HashPrims) (cfg : Ctx) (Name : Str) (Parent : Blob) (_displayfilter : Bool) :
    Option (Str × Blob) :=
  CleanName.body H cfg (CleanName.subNames cfg Name) Parent

/-- The tail shared by both overloads of `GetID`: the identifier of the cleaned name under
`parent`. -/
def GetID.finish (H : HashPrims) (cleanName : Str) (parent : Blob) : Blob :=
  let subName := to_lower_copy cleanName
  let idHash :=
    if IsNull parent then H.Hash (subName.take (strlen subName))
    else H.Hash (parent ++ H.Hash (subName.take (strlen subName)))
  H.Hash160 idHash

/-- Function `CVDXF::GetID(Name)`; the result is always present, see `GetID_isSome`. -/
def GetID (H : HashPrims) (cfg : Ctx) (Name : Str) : Option Blob :=
  match CleanName H cfg Name nullUint160 cfg.CleanName_displayfilter with
  | none => none
  | some (cleanName, parent) => some (GetID.finish H cleanName parent)

/-- Function `CVDXF::GetID(Name, parent)`: the returned identifier and the value of `parent` after
the call. -/
def GetID2 (H : HashPrims) (cfg : Ctx) (Name : Str) (parent : Blob) : Option (Blob × Blob) :=
  match CleanName H cfg Name parent cfg.CleanName_displayfilter with
  | none => none
  | some (cleanName, parent1) => some (GetID.finish H cleanName parent1, parent1)

/-- Function `CVDXF::GetDataKey(keyName, nameSpaceID)`. -/
def GetDataKey (H : HashPrims) (cfg : Ctx) (keyName : Str) (nameSpaceID : Blob) : Option Blob :=
  let nameSpaceID1 := if IsNull nameSpaceID then cfg.VERUS_CHAINID else nameSpaceID
  match GetID2 H cfg DATA_KEY_SEPARATOR nameSpaceID1 with
  | none => none
  | some (parent, _) =>
    match GetID2 H cfg keyName parent with
    | none => none
    | some (id, _) => some id

/-! ## The folding rule in the words of the specification -/

/-- One step of the folding rule as the specification words it: `d = Hash256` of all bytes
of the lowercased component, chained as `Hash256(parent.bytes ++ d.bytes)` when the running
parent is non-null, then `Hash160(d)`. -/
def specStep (H : HashPrims) (parent : Blob) (component : Str) : Blob :=
  let d := H.Hash (to_lower_copy component)
  H.Hash160 (if IsNull parent then d else H.Hash (parent ++ d))

/-- The folding rule of the specification over components `c0 .. c(n-1)`, processed from
`c(n-1)` down to `c0`, starting from the parent `P`. -/
def specFold (H : HashPrims) (P : Blob) (components : List Str) : Blob :=
  components.foldr (fun c running => specStep H running c) P

/-- The names that `ParseSubNames` hands to its validation loop. -/
def ParseSubNames.candidates (cfg : Ctx) (Name : Str) (addVerus : Bool) : List Str :=
  if addVerus then
    addVerusStep (to_lower_copy cfg.VERUS_CHAINNAME) (split 46 ((split 64 Name).headD []))
  else split 46 ((split 64 Name).headD [])

/-- The two-argument route of parent scoping, `GetID(leaf, GetID(p, null parent))`. -/
def GetID.scoped (H : HashPrims) (cfg : Ctx) (leaf p : Str) : Option Blob :=
  match GetID2 H cfg p nullUint160 with
  | none => none
  | some (parent, _) =>
    match GetID2 H cfg leaf parent with
    | none => none
    | some (id, _) => some id

/-- The sub-names that `CleanName` folds: those it gets from `ParseSubNames`, without the
last one when `Parent` is non-null and that one is the root chain name up to case. -/
def CleanName.kept (cfg : Ctx) (subNames : List Str) (Parent : Blob) : List Str :=
  if !IsNull Parent ∧ to_lower_copy (back subNames) = to_lower_copy cfg.VERUS_CHAINNAME then
    subNames.dropLast
  else subNames

/-! ## Example instances -/

/-- The `k` low bytes of a number, least significant first. -/
def leBytes : Nat → Nat → List Nat
  | 0, _ => []
  | k + 1, n => n % 256 :: leBytes k (n / 256)

/-- A pair of hash functions with outputs of 32 and 20 bytes, for evaluating examples. -/
def exampleHash : HashPrims where
  Hash := fun bs => leBytes 32 (bs.foldl (fun acc b => (acc * 257 + b + 1) % 2 ^ 256) 7)
  Hash160 := fun bs => leBytes 20 (bs.foldl (fun acc b => (acc * 263 + b + 1) % 2 ^ 160) 11)

/-- An example of a non-null namespace identifier. -/
def exampleNamespace : Blob := List.replicate 20 1

/-- An example context: root chain `VRSC`, sub-names of at most 64 bytes. -/
def exampleCtx : Ctx where
  VERUS_CHAINNAME := lit "VRSC"
  VERUS_CHAINID := List.replicate 20 7
  KOMODO_ASSETCHAIN_MAXLEN := 65
  maxlen_pos := by decide
  maxlen_int := by decide
  ParseSubNames_displayfilter := false
  CleanName_displayfilter := false

/-! ## Lemmas on the library primitives -/

theorem split_ne_nil (sep : Nat) (s : Str) : split sep s ≠ [] := by
  induction s with
  | nil => simp [split]
  | cons c cs ih =>
    unfold split
    split
    · simp
    · split <;> simp

/-- The model of `boost::split` is the library function `List.splitOn`. -/
theorem split_eq_splitOn (sep : Nat) (s : Str) : split sep s = s.splitOn sep := by
  induction s with
  | nil => rfl
  | cons c cs ih =>
    unfold split
    rw [List.splitOn, List.splitOnP_cons, ← List.splitOn, ← ih]
    by_cases h : c = sep
    · simp [h]
    · have hne : (c == sep) = false := by simpa using h
      rw [if_neg h, hne]
      cases hs : split sep cs with
      | nil => exact absurd hs (split_ne_nil sep cs)
      | cons t ts => simp [List.modifyHead]

theorem length_split (sep : Nat) (s : Str) : (split sep s).length = s.count sep + 1 := by
  induction s with
  | nil => simp [split]
  | cons c cs ih =>
    unfold split
    by_cases h : c = sep
    · subst h
      simp [ih]
    · have hne : (c == sep) = false := by simpa using h
      rw [if_neg h, List.count_cons, hne]
      cases hs : split sep cs with
      | nil => exact absurd hs (split_ne_nil sep cs)
      | cons t ts =>
        rw [hs] at ih
        simpa using ih

theorem headD_split (sep : Nat) (s : Str) :
    (split sep s).headD [] = s.takeWhile (fun c => c != sep) := by
  induction s with
  | nil => simp [split]
  | cons c cs ih =>
    unfold split
    by_cases h : c = sep
    · subst h
      simp
    · rw [if_neg h]
      have hne : (c != sep) = true := by simpa using h
      rw [List.takeWhile_cons, hne, if_pos rfl]
      cases hs : split sep cs with
      | nil => exact absurd hs (split_ne_nil sep cs)
      | cons t ts =>
        rw [hs] at ih
        simp at ih
        simp [ih]

theorem invalid_any (displayfilter : Bool) (Name : Str)
    (h : ∃ c ∈ Name, c ∈ [92, 47, 58, 42, 63, 34, 60, 62, 124]) :
    Name.any (fun c => (invalidChars displayfilter).contains c) = true := by
  obtain ⟨c, hc, hin⟩ := h
  rw [List.any_eq_true]
  refine ⟨c, hc, ?_⟩
  simp only [invalidChars, List.contains, List.elem_eq_mem, decide_eq_true_eq]
  exact List.mem_append_left _ hin

/-- For an argument below 128 the comparison is the comparison of the byte values. -/
theorem charNe_of_lt (c ch : Nat) (hch : ch < 128) : charNe c ch = !(c == ch) := by
  simp [charNe, hch]

/-- For an argument of 128 or more every byte compares different. -/
theorem charNe_of_ge (c ch : Nat) (hch : 128 ≤ ch) : charNe c ch = true := by
  have h : ¬ ch < 128 := by omega
  simp [charNe, h]

theorem drop_removeSpaces (ch : Nat) (hch : ch < 128) (s : Str) :
    s.drop (TrimLeading.removeSpaces ch s) = s.dropWhile (fun c => c == ch) := by
  induction s with
  | nil => rfl
  | cons c cs ih =>
    unfold TrimLeading.removeSpaces
    rw [charNe_of_lt c ch hch]
    by_cases h : c = ch
    · simp [h, ih]
    · simp [h, List.dropWhile_cons]

theorem TrimLeading_eq (s : Str) (ch : Nat) (hch : ch < 128) :
    TrimLeading s ch = s.dropWhile (fun c => c == ch) := by
  unfold TrimLeading
  simp only []
  split
  · exact drop_removeSpaces ch hch s
  · rename_i h
    have h0 : TrimLeading.removeSpaces ch s = 0 := by simpa using h
    have := drop_removeSpaces ch hch s
    rw [h0] at this
    simpa using this

theorem removeSpaces_trailing (s : Str) (ch : Nat) (hch : ch < 128) (k : Nat)
    (hk : k ≤ s.length) :
    ∃ r : Nat, TrimTrailing.removeSpaces s ch k = (r : Int) - 1 ∧ r ≤ k ∧
      s.take r = (s.take k).rdropWhile (fun c => c == ch) := by
  induction k with
  | zero => exact ⟨0, by simp [TrimTrailing.removeSpaces], le_refl _, by simp⟩
  | succ k ih =>
    have hlt : k < s.length := hk
    have htake : s.take (k + 1) = s.take k ++ [s[k]] := by
      rw [List.take_succ, List.getElem?_eq_getElem hlt]; rfl
    have hget : s.getD k 0 = s[k] := by
      simp [List.getD, List.getElem?_eq_getElem hlt]
    unfold TrimTrailing.removeSpaces
    rw [hget, charNe_of_lt _ ch hch]
    by_cases h : s[k] = ch
    · obtain ⟨r, h1, h2, h3⟩ := ih (Nat.le_of_lt hlt)
      refine ⟨r, ?_, by omega, ?_⟩
      · simp [h, h1]
      · rw [htake, List.rdropWhile_concat_pos _ _ _ (by simpa using h)]
        exact h3
    · refine ⟨k + 1, ?_, le_refl _, ?_⟩
      · simp [h]
      · rw [htake, List.rdropWhile_concat_neg _ _ _ (by simpa using h)]

theorem size_t_resize (len r : Nat) (hr : r ≤ len) (hlen : len < 2 ^ 64) :
    size_t ((len : Int) - size_t (size_t ((len : Int) - 1) - size_t ((r : Int) - 1))) = r := by
  unfold size_t
  omega

theorem TrimTrailing_eq (s : Str) (ch : Nat) (hch : ch < 128) (hlen : s.length < 2 ^ 64) :
    TrimTrailing s ch = s.rdropWhile (fun c => c == ch) := by
  obtain ⟨r, h1, h2, h3⟩ := removeSpaces_trailing s ch hch s.length (le_refl _)
  unfold TrimTrailing
  simp only []
  rw [h1, size_t_resize s.length r h2 hlen]
  unfold resize
  rw [Nat.sub_eq_zero_of_le h2]
  simpa using h3

theorem trim_check (n : Str) (hlen : n.length < 2 ^ 64) :
    n = TrimTrailing (TrimLeading n 32) 32 ↔ (n.head? ≠ some 32 ∧ n.getLast? ≠ some 32) := by
  have hsuf : (n.dropWhile (fun c => c == 32)) <:+ n := List.dropWhile_suffix _
  have hl1 : (n.dropWhile (fun c => c == 32)).length ≤ n.length := hsuf.length_le
  rw [TrimLeading_eq _ _ (by norm_num), TrimTrailing_eq _ _ (by norm_num) (lt_of_le_of_lt hl1 hlen)]
  have hpre : ((n.dropWhile (fun c => c == 32)).rdropWhile (fun c => c == 32)) <+:
      n.dropWhile (fun c => c == 32) := List.rdropWhile_prefix _ _
  have hd : n.dropWhile (fun c => c == 32) = n ↔ n.head? ≠ some 32 := by
    rw [List.dropWhile_eq_self_iff]
    cases n with
    | nil => simp
    | cons a l => simp
  have hr : n.rdropWhile (fun c => c == 32) = n ↔ n.getLast? ≠ some 32 := by
    rw [List.rdropWhile_eq_self_iff]
    constructor
    · intro h hlast
      have hne : n ≠ [] := by rintro rfl; simp at hlast
      have := h hne
      rw [List.getLast?_eq_getLast _ hne] at hlast
      simp at hlast
      simp [hlast] at this
    · intro h hne hp
      apply h
      rw [List.getLast?_eq_getLast _ hne]
      simpa using hp
  constructor
  · intro h
    have hl2 := hpre.length_le
    have hlen_eq : (n.dropWhile (fun c => c == 32)).length = n.length := by
      have := congrArg List.length h
      omega
    have h1 : n.dropWhile (fun c => c == 32) = n := hsuf.eq_of_length hlen_eq
    rw [h1] at h
    exact ⟨hd.mp h1, hr.mp h.symm⟩
  · rintro ⟨h1, h2⟩
    rw [hd.mpr h1, hr.mpr h2]

/-- The cut of a sub-name to `KOMODO_ASSETCHAIN_MAXLEN - 1` bytes. -/
theorem truncate_eq (cfg : Ctx) (n : Str) :
    (if n.length > cfg.KOMODO_ASSETCHAIN_MAXLEN - 1 then
        n.take (cfg.KOMODO_ASSETCHAIN_MAXLEN - 1) else n) =
      n.take (cfg.KOMODO_ASSETCHAIN_MAXLEN - 1) := by
  split
  · rfl
  · rw [List.take_of_length_le (by omega)]

theorem checkSubNames_some (cfg : Ctx) (names : List Str)
    (h : ∀ p ∈ names.map (fun p => p.take (cfg.KOMODO_ASSETCHAIN_MAXLEN - 1)),
      p ≠ [] ∧ p.head? ≠ some 32 ∧ p.getLast? ≠ some 32) :
    checkSubNames cfg names =
      some (names.map (fun p => p.take (cfg.KOMODO_ASSETCHAIN_MAXLEN - 1))) := by
  induction names with
  | nil => rfl
  | cons n rest ih =>
    have hn := h (n.take (cfg.KOMODO_ASSETCHAIN_MAXLEN - 1)) (by simp)
    have hrest := ih (fun p hp => h p (by simp at hp ⊢; exact Or.inr hp))
    have hlen : (n.take (cfg.KOMODO_ASSETCHAIN_MAXLEN - 1)).length < 2 ^ 64 := by
      have := cfg.maxlen_int
      have : (n.take (cfg.KOMODO_ASSETCHAIN_MAXLEN - 1)).length ≤
          cfg.KOMODO_ASSETCHAIN_MAXLEN - 1 := by simp
      omega
    unfold checkSubNames
    simp only [truncate_eq]
    rw [if_neg, hrest]
    · rfl
    · rintro (h0 | h1)
      · exact hn.1 (List.length_eq_zero.mp h0)
      · exact h1 ((trim_check _ hlen).mpr hn.2)

theorem checkSubNames_none (cfg : Ctx) (names : List Str)
    (h : ¬ ∀ p ∈ names.map (fun p => p.take (cfg.KOMODO_ASSETCHAIN_MAXLEN - 1)),
      p ≠ [] ∧ p.head? ≠ some 32 ∧ p.getLast? ≠ some 32) :
    checkSubNames cfg names = none := by
  induction names with
  | nil => simp at h
  | cons n rest ih =>
    have hlen : (n.take (cfg.KOMODO_ASSETCHAIN_MAXLEN - 1)).length < 2 ^ 64 := by
      have := cfg.maxlen_int
      have : (n.take (cfg.KOMODO_ASSETCHAIN_MAXLEN - 1)).length ≤
          cfg.KOMODO_ASSETCHAIN_MAXLEN - 1 := by simp
      omega
    unfold checkSubNames
    simp only [truncate_eq]
    split
    · rfl
    · rename_i hok
      push_neg at hok
      have hrest : checkSubNames cfg rest = none := by
        apply ih
        intro hall
        apply h
        intro p hp
        simp only [List.map_cons, List.mem_cons] at hp
        rcases hp with rfl | hp
        · exact ⟨fun h0 => hok.1 (by simp [h0]), (trim_check _ hlen).mp hok.2⟩
        · exact hall p hp
      rw [hrest]
      rfl

/-- The vector returned by `ParseSubNames` without `addVerus`, for a name that passes the
character check and has at most one `@`. -/
theorem ParseSubNames_fst (cfg : Ctx) (Name ChainOut : Str) (displayfilter : Bool)
    (hinv : ∀ c ∈ Name, c ∉ invalidChars displayfilter) (hat : Name.count 64 ≤ 1) :
    (ParseSubNames cfg Name ChainOut displayfilter false).1 =
      (checkSubNames cfg (split 46 (Name.takeWhile (fun c => c != 64)))).getD [] := by
  have hany : Name.any (fun c => (invalidChars displayfilter).contains c) = false := by
    rw [List.any_eq_false]
    intro c hc
    simpa [List.contains] using hinv c hc
  have hlen : ¬ ((split 64 Name).length = 0 ∨ (split 64 Name).length > 2) := by
    rw [length_split]; omega
  unfold ParseSubNames
  simp only [hany, hlen, if_false, Bool.false_eq_true, headD_split]
  cases checkSubNames cfg (split 46 (Name.takeWhile (fun c => c != 64))) with
  | none => rfl
  | some r =>
    simp only [Option.getD_some]
    split
    · split <;> rfl
    · rfl

theorem ParseSubNames_of_invalid (cfg : Ctx) (Name ChainOut : Str)
    (displayfilter addVerus : Bool)
    (h : ∃ c ∈ Name, c ∈ [92, 47, 58, 42, 63, 34, 60, 62, 124]) :
    (ParseSubNames cfg Name ChainOut displayfilter addVerus).1 = [] := by
  unfold ParseSubNames
  rw [if_pos (invalid_any displayfilter Name h)]

/-- The separator `::` is made of invalid bytes: `CleanName` gets no sub-names for it. -/
theorem subNames_DATA_KEY_SEPARATOR (cfg : Ctx) :
    CleanName.subNames cfg DATA_KEY_SEPARATOR = [] :=
  ParseSubNames_of_invalid cfg _ _ _ _ ⟨58, by decide, by decide⟩

/-! ## Lemmas on CleanName and GetID -/

/-- The index loop of `CleanName` is a right fold over the ancestors `subNames[1..k]`. -/
theorem loop_eq_foldr (H : HashPrims) (c0 : Str) (rest : List Str) (k : Nat)
    (hk : k ≤ rest.length) (P : Blob) :
    CleanName.loop H (c0 :: rest) k P =
      (rest.take k).foldr (fun c acc => CleanName.step H acc c) P := by
  induction k generalizing P with
  | zero => simp [CleanName.loop]
  | succ k ih =>
    have hlt : k < rest.length := hk
    have htake : rest.take (k + 1) = rest.take k ++ [rest[k]] := by
      rw [List.take_succ, List.getElem?_eq_getElem hlt]; rfl
    have hget : (c0 :: rest).getD (k + 1) [] = rest[k] := by
      simp [List.getD, List.getElem?_eq_getElem hlt]
    unfold CleanName.loop
    rw [hget, ih (Nat.le_of_lt hlt), htake, List.foldr_append]
    rfl

/-- The body of `CleanName` on a vector that keeps its last element. -/
theorem body_cons_keep (H : HashPrims) (cfg : Ctx) (c0 : Str) (rest : List Str) (P : Blob)
    (hkeep : ¬ (!IsNull P ∧
      to_lower_copy (back (c0 :: rest)) = to_lower_copy cfg.VERUS_CHAINNAME)) :
    CleanName.body H cfg (c0 :: rest) P =
      some (c0, rest.foldr (fun c acc => CleanName.step H acc c) P) := by
  unfold CleanName.body
  simp only [List.length_cons, Nat.add_one_ne_zero, if_false, if_neg hkeep, Nat.add_sub_cancel]
  rw [loop_eq_foldr H c0 rest rest.length (le_refl _), List.take_length]

/-- The body of `CleanName` on a vector whose last element is dropped. -/
theorem body_drop (H : HashPrims) (cfg : Ctx) (subNames : List Str) (P : Blob)
    (hne : subNames ≠ [])
    (hdrop : !IsNull P ∧ to_lower_copy (back subNames) = to_lower_copy cfg.VERUS_CHAINNAME) :
    CleanName.body H cfg subNames P =
      match subNames.dropLast with
      | [] => none
      | c0 :: rest => some (c0, rest.foldr (fun c acc => CleanName.step H acc c) P) := by
  unfold CleanName.body
  have hlen : subNames.length ≠ 0 := by simpa using hne
  simp only [hlen, if_false, if_pos hdrop]
  cases hd : subNames.dropLast with
  | nil => rfl
  | cons c0 rest =>
    simp only [List.length_cons, Nat.add_sub_cancel]
    rw [loop_eq_foldr H c0 rest rest.length (le_refl _), List.take_length]

/-! ## Lemmas on lowercasing -/

theorem tolower_idem (c : Nat) : tolower (tolower c) = tolower c := by
  unfold tolower
  split_ifs <;> omega

theorem to_lower_copy_idem (s : Str) : to_lower_copy (to_lower_copy s) = to_lower_copy s := by
  simp [to_lower_copy, tolower_idem]

/-- A byte that is not a letter is the lowercase form of itself only. -/
theorem tolower_eq_iff (c x : Nat) (hx : x < 65 ∨ (90 < x ∧ x < 97) ∨ 122 < x) :
    tolower c = x ↔ c = x := by
  unfold tolower
  split_ifs <;> omega

theorem invalid_tolower (displayfilter : Bool) (c : Nat) :
    (invalidChars displayfilter).contains (tolower c) = (invalidChars displayfilter).contains c := by
  have h : ∀ x ∈ invalidChars displayfilter, x < 65 ∨ (90 < x ∧ x < 97) ∨ 122 < x := by
    cases displayfilter <;> decide
  rw [Bool.eq_iff_iff]
  simp only [List.contains, List.elem_eq_mem, decide_eq_true_eq]
  constructor
  · intro hm
    have hc : tolower c = c := ((tolower_eq_iff c _ (h _ hm)).mp rfl).symm
    rw [hc] at hm
    exact hm
  · intro hm
    have := (tolower_eq_iff c c (h _ hm)).mpr rfl
    rwa [this]

theorem split_to_lower (sep : Nat) (hsep : sep < 65 ∨ (90 < sep ∧ sep < 97) ∨ 122 < sep)
    (s : Str) : split sep (to_lower_copy s) = (split sep s).map to_lower_copy := by
  induction s with
  | nil => rfl
  | cons c cs ih =>
    have hc : tolower c = sep ↔ c = sep := tolower_eq_iff c sep hsep
    show split sep (tolower c :: to_lower_copy cs) = _
    unfold split
    by_cases h : c = sep
    · rw [if_pos (hc.mpr h), if_pos h, ih]
      rfl
    · rw [if_neg (fun h2 => h (hc.mp h2)), if_neg h, ih]
      cases hs : split sep cs with
      | nil => exact absurd hs (split_ne_nil sep cs)
      | cons t ts => rfl

theorem head?_to_lower (n : Str) : (to_lower_copy n).head? = some 32 ↔ n.head? = some 32 := by
  cases n with
  | nil => simp [to_lower_copy]
  | cons a l =>
    simp only [to_lower_copy, List.map_cons, List.head?_cons, Option.some.injEq]
    exact tolower_eq_iff a 32 (by omega)

theorem getLast?_to_lower (n : Str) :
    (to_lower_copy n).getLast? = some 32 ↔ n.getLast? = some 32 := by
  unfold to_lower_copy
  rw [List.getLast?_map]
  cases h : n.getLast? with
  | none => simp
  | some a =>
    simp only [Option.map_some', Option.some.injEq]
    exact tolower_eq_iff a 32 (by omega)

theorem checkSubNames_to_lower (cfg : Ctx) (names : List Str) :
    checkSubNames cfg (names.map to_lower_copy) =
      (checkSubNames cfg names).map (fun ns => ns.map to_lower_copy) := by
  induction names with
  | nil => rfl
  | cons n rest ih =>
    have hlen : ∀ x : Str, (x.take (cfg.KOMODO_ASSETCHAIN_MAXLEN - 1)).length < 2 ^ 64 := by
      intro x
      have := cfg.maxlen_int
      have : (x.take (cfg.KOMODO_ASSETCHAIN_MAXLEN - 1)).length ≤
          cfg.KOMODO_ASSETCHAIN_MAXLEN - 1 := by simp
      omega
    have htake : (to_lower_copy n).take (cfg.KOMODO_ASSETCHAIN_MAXLEN - 1) =
        to_lower_copy (n.take (cfg.KOMODO_ASSETCHAIN_MAXLEN - 1)) := by
      simp [to_lower_copy, List.map_take]
    have hcond : ((to_lower_copy (n.take (cfg.KOMODO_ASSETCHAIN_MAXLEN - 1))).length = 0 ∨
        to_lower_copy (n.take (cfg.KOMODO_ASSETCHAIN_MAXLEN - 1)) ≠
          TrimTrailing (TrimLeading (to_lower_copy (n.take (cfg.KOMODO_ASSETCHAIN_MAXLEN - 1))) 32) 32) ↔
        ((n.take (cfg.KOMODO_ASSETCHAIN_MAXLEN - 1)).length = 0 ∨
          n.take (cfg.KOMODO_ASSETCHAIN_MAXLEN - 1) ≠
            TrimTrailing (TrimLeading (n.take (cfg.KOMODO_ASSETCHAIN_MAXLEN - 1)) 32) 32) := by
      have h1 := trim_check _ (hlen n)
      have h2 := trim_check (to_lower_copy (n.take (cfg.KOMODO_ASSETCHAIN_MAXLEN - 1)))
        (by rw [← htake]; exact hlen _)
      rw [Ne, Ne, h1, h2]
      simp only [ne_eq, head?_to_lower, getLast?_to_lower]
      simp [to_lower_copy]
    show checkSubNames cfg (to_lower_copy n :: rest.map to_lower_copy) = _
    unfold checkSubNames
    simp only [truncate_eq]
    rw [htake]
    by_cases hc : (n.take (cfg.KOMODO_ASSETCHAIN_MAXLEN - 1)).length = 0 ∨
        n.take (cfg.KOMODO_ASSETCHAIN_MAXLEN - 1) ≠
          TrimTrailing (TrimLeading (n.take (cfg.KOMODO_ASSETCHAIN_MAXLEN - 1)) 32) 32
    · rw [if_pos (hcond.mpr hc), if_pos hc]
      rfl
    · rw [if_neg (fun h => hc (hcond.mp h)), if_neg hc, ih]
      cases checkSubNames cfg rest <;> rfl

/-- The vector returned by `ParseSubNames` without `addVerus`. -/
theorem ParseSubNames_fst_eq (cfg : Ctx) (Name ChainOut : Str) (displayfilter : Bool) :
    (ParseSubNames cfg Name ChainOut displayfilter false).1 =
      if Name.any (fun c => (invalidChars displayfilter).contains c) then []
      else if (split 64 Name).length > 2 then []
      else (checkSubNames cfg (split 46 ((split 64 Name).headD []))).getD [] := by
  unfold ParseSubNames
  split
  · rfl
  · have h0 : (split 64 Name).length ≠ 0 := by rw [length_split]; omega
    by_cases h2 : (split 64 Name).length > 2
    · simp only [h2, or_true, if_true]
    · simp only [h0, h2, or_false, if_false, Bool.false_eq_true]
      cases checkSubNames cfg (split 46 ((split 64 Name).headD [])) with
      | none => rfl
      | some r =>
        simp only [Option.getD_some]
        split
        · split <;> rfl
        · rfl

/-- Lowercasing the name lowercases the sub-names that `CleanName` gets. -/
theorem subNames_to_lower (cfg : Ctx) (Name : Str) :
    CleanName.subNames cfg (to_lower_copy Name) =
      (CleanName.subNames cfg Name).map to_lower_copy := by
  unfold CleanName.subNames ParseSubNames_addVerus
  rw [ParseSubNames_fst_eq, ParseSubNames_fst_eq]
  have hany : (to_lower_copy Name).any
      (fun c => (invalidChars cfg.ParseSubNames_displayfilter).contains c) =
      Name.any (fun c => (invalidChars cfg.ParseSubNames_displayfilter).contains c) := by
    unfold to_lower_copy
    rw [List.any_map]
    congr 1
    funext c
    exact invalid_tolower _ c
  rw [hany, split_to_lower 64 (by omega)]
  split
  · rfl
  · rw [List.length_map]
    split
    · rfl
    · have hhead : ((split 64 Name).map to_lower_copy).headD [] =
          to_lower_copy ((split 64 Name).headD []) := by
        cases split 64 Name <;> rfl
      rw [hhead, split_to_lower 46 (by omega), checkSubNames_to_lower]
      cases checkSubNames cfg (split 46 ((split 64 Name).headD [])) <;> rfl

theorem strlen_to_lower (s : Str) : strlen (to_lower_copy s) = strlen s := by
  unfold strlen to_lower_copy
  induction s with
  | nil => rfl
  | cons a l ih =>
    have h : (tolower a != 0) = (a != 0) := by
      rw [Bool.eq_iff_iff]
      simp only [bne_iff_ne, ne_eq]
      exact not_congr (tolower_eq_iff a 0 (by omega))
    simp only [List.map_cons, List.takeWhile_cons, h]
    split
    · simp only [List.length_cons, ih]
    · rfl

theorem step_to_lower (H : HashPrims) (P : Blob) (c : Str) :
    CleanName.step H P (to_lower_copy c) = CleanName.step H P c := by
  unfold CleanName.step
  simp only [to_lower_copy_idem]

theorem finish_to_lower (H : HashPrims) (P : Blob) (c : Str) :
    GetID.finish H (to_lower_copy c) P = GetID.finish H c P := by
  unfold GetID.finish
  simp only [to_lower_copy_idem]

theorem foldr_step_to_lower (H : HashPrims) (P : Blob) (rest : List Str) :
    (rest.map to_lower_copy).foldr (fun c acc => CleanName.step H acc c) P =
      rest.foldr (fun c acc => CleanName.step H acc c) P := by
  induction rest with
  | nil => rfl
  | cons c rest ih => simp only [List.map_cons, List.foldr_cons, ih, step_to_lower]

theorem back_to_lower (l : List Str) : back (l.map to_lower_copy) = to_lower_copy (back l) := by
  unfold back
  rw [List.getLastD_eq_getLast?, List.getLastD_eq_getLast?, List.getLast?_map]
  cases l.getLast? <;> rfl

/-- The body of `CleanName` on lowercased sub-names: the same parent, the lowercased leaf. -/
theorem body_to_lower (H : HashPrims) (cfg : Ctx) (l : List Str) (P : Blob) :
    CleanName.body H cfg (l.map to_lower_copy) P =
      (CleanName.body H cfg l P).map (fun r => (to_lower_copy r.1, r.2)) := by
  cases l with
  | nil => rfl
  | cons c0 rest =>
    by_cases hdrop : !IsNull P ∧
        to_lower_copy (back (c0 :: rest)) = to_lower_copy cfg.VERUS_CHAINNAME
    · have hdrop2 : !IsNull P ∧ to_lower_copy (back ((c0 :: rest).map to_lower_copy)) =
          to_lower_copy cfg.VERUS_CHAINNAME := by
        rw [back_to_lower, to_lower_copy_idem]; exact hdrop
      rw [body_drop H cfg _ P (by simp) hdrop2, body_drop H cfg _ P (by simp) hdrop,
        ← List.map_dropLast]
      cases (c0 :: rest).dropLast with
      | nil => rfl
      | cons d0 drest =>
        simp only [List.map_cons, foldr_step_to_lower, Option.map_some']
    · have hdrop2 : ¬ (!IsNull P ∧ to_lower_copy (back (to_lower_copy c0 :: rest.map to_lower_copy)) =
          to_lower_copy cfg.VERUS_CHAINNAME) := by
        rw [← List.map_cons, back_to_lower, to_lower_copy_idem]; exact hdrop
      rw [List.map_cons, body_cons_keep H cfg _ _ P hdrop2, body_cons_keep H cfg _ _ P hdrop,
        foldr_step_to_lower]
      rfl

theorem GetID2_to_lower (H : HashPrims) (cfg : Ctx) (Name : Str) (P : Blob) :
    GetID2 H cfg (to_lower_copy Name) P = GetID2 H cfg Name P := by
  unfold GetID2 CleanName
  rw [subNames_to_lower, body_to_lower]
  cases CleanName.body H cfg (CleanName.subNames cfg Name) P with
  | none => rfl
  | some r => simp only [Option.map_some', finish_to_lower]

theorem GetID_to_lower (H : HashPrims) (cfg : Ctx) (Name : Str) :
    GetID H cfg (to_lower_copy Name) = GetID H cfg Name := by
  unfold GetID CleanName
  rw [subNames_to_lower, body_to_lower]
  cases CleanName.body H cfg (CleanName.subNames cfg Name) nullUint160 with
  | none => rfl
  | some r => simp only [Option.map_some', finish_to_lower]

/-! ## Lemmas on GetDataKey -/

theorem GetID2_of_rejected (H : HashPrims) (cfg : Ctx) (Name : Str) (P : Blob)
    (h : CleanName.subNames cfg Name = []) :
    GetID2 H cfg Name P = some (GetID.finish H [] P, P) := by
  simp [GetID2, CleanName, CleanName.body, h]

/-- What `GetDataKey` computes: the identifier of `keyName` under the identifier that
`GetID` gives to the rejected name `::` under the namespace. -/
theorem GetDataKey_eq (H : HashPrims) (cfg : Ctx) (keyName : Str) (N : Blob) :
    GetDataKey H cfg keyName N =
      (GetID2 H cfg keyName
        (GetID.finish H [] (if IsNull N then cfg.VERUS_CHAINID else N))).map Prod.fst := by
  unfold GetDataKey
  simp only [GetID2_of_rejected H cfg DATA_KEY_SEPARATOR _ (subNames_DATA_KEY_SEPARATOR cfg)]
  cases GetID2 H cfg keyName
    (GetID.finish H [] (if IsNull N then cfg.VERUS_CHAINID else N)) <;> rfl

/-! ## The folding rule of the specification, where the code follows it -/

theorem take_strlen_of_no_nul (s : Str) (h : 0 ∉ s) : s.take (strlen s) = s := by
  unfold strlen
  induction s with
  | nil => rfl
  | cons a l ih =>
    have ha : (a != 0) = true := by
      simp only [bne_iff_ne, ne_eq]
      intro h0
      exact h (by simp [h0])
    have hl : 0 ∉ l := fun hm => h (List.mem_cons_of_mem _ hm)
    simp only [List.takeWhile_cons, ha, if_true, List.length_cons, List.take_succ_cons, ih hl]

theorem no_nul_to_lower (s : Str) (h : 0 ∉ s) : 0 ∉ to_lower_copy s := by
  unfold to_lower_copy
  intro hm
  obtain ⟨a, ha, h0⟩ := List.mem_map.mp hm
  rw [(tolower_eq_iff a 0 (by omega)).mp h0] at ha
  exact h ha

theorem step_eq_specStep (H : HashPrims) (P : Blob) (c : Str) (h : 0 ∉ c) :
    CleanName.step H P c = specStep H P c := by
  unfold CleanName.step specStep
  simp only [take_strlen_of_no_nul _ (no_nul_to_lower c h)]

theorem finish_eq_specStep (H : HashPrims) (P : Blob) (c : Str) (h : 0 ∉ c) :
    GetID.finish H c P = specStep H P c := by
  unfold GetID.finish specStep
  simp only [take_strlen_of_no_nul _ (no_nul_to_lower c h)]

theorem foldr_step_eq_specFold (H : HashPrims) (P : Blob) (rest : List Str)
    (h : ∀ c ∈ rest, 0 ∉ c) :
    rest.foldr (fun c acc => CleanName.step H acc c) P = specFold H P rest := by
  unfold specFold
  induction rest with
  | nil => rfl
  | cons c rest ih =>
    simp only [List.foldr_cons]
    rw [ih (fun x hx => h x (List.mem_cons_of_mem _ hx)),
      step_eq_specStep H _ c (h c (List.mem_cons_self _ _))]

/-- The body of `CleanName` in terms of the sub-names it keeps. -/
theorem body_eq_of_kept (H : HashPrims) (cfg : Ctx) (subNames : List Str) (P : Blob)
    (c0 : Str) (rest : List Str) (hk : CleanName.kept cfg subNames P = c0 :: rest) :
    CleanName.body H cfg subNames P =
      some (c0, rest.foldr (fun c acc => CleanName.step H acc c) P) := by
  have hne : subNames ≠ [] := by
    rintro rfl
    simp [CleanName.kept] at hk
  unfold CleanName.kept at hk
  by_cases hdrop : !IsNull P ∧
      to_lower_copy (back subNames) = to_lower_copy cfg.VERUS_CHAINNAME
  · rw [if_pos hdrop] at hk
    rw [body_drop H cfg subNames P hne hdrop, hk]
  · rw [if_neg hdrop] at hk
    subst hk
    exact body_cons_keep H cfg c0 rest P hdrop

/-- Where the code follows the folding rule of the specification: when the sub-names that
`CleanName` keeps are `c0 :: rest` and none of them has a NUL byte, the two-argument `GetID`
returns the fold over `c0 :: rest` and leaves in `parent` the fold over `rest`. -/
theorem GetID2_eq_specFold (H : HashPrims) (cfg : Ctx) (Name : Str) (P : Blob)
    (c0 : Str) (rest : List Str)
    (hk : CleanName.kept cfg (CleanName.subNames cfg Name) P = c0 :: rest)
    (hnul : ∀ c ∈ c0 :: rest, 0 ∉ c) :
    GetID2 H cfg Name P = some (specFold H P (c0 :: rest), specFold H P rest) := by
  have hrest := foldr_step_eq_specFold H P rest (fun c hc => hnul c (List.mem_cons_of_mem _ hc))
  unfold GetID2 CleanName
  rw [body_eq_of_kept H cfg _ P c0 rest hk]
  simp only [hrest, finish_eq_specStep H _ c0 (hnul c0 (List.mem_cons_self _ _))]
  rfl

/-- When `CleanName` keeps a sub-name, it returns sub-name 0 of the parsed vector. -/
theorem CleanName_leaf (H : HashPrims) (cfg : Ctx) (Name : Str) (P : Blob)
    (displayfilter : Bool) (c0 : Str) (rest : List Str)
    (hs : CleanName.subNames cfg Name = c0 :: rest)
    (hkeep : IsNull P = true ∨ rest ≠ [] ∨
      to_lower_copy c0 ≠ to_lower_copy cfg.VERUS_CHAINNAME) :
    ∃ P1, CleanName H cfg Name P displayfilter = some (c0, P1) := by
  unfold CleanName
  rw [hs]
  by_cases hdrop : !IsNull P ∧
      to_lower_copy (back (c0 :: rest)) = to_lower_copy cfg.VERUS_CHAINNAME
  · rw [body_drop H cfg _ P (by simp) hdrop]
    cases rest with
    | nil =>
      rcases hkeep with h | h | h
      · simp [h] at hdrop
      · exact absurd rfl h
      · exact absurd hdrop.2 h
    | cons c1 rest1 => exact ⟨_, rfl⟩
  · exact ⟨_, body_cons_keep H cfg c0 rest P hdrop⟩

/-- The one-argument `GetID` always returns an identifier. -/
theorem GetID_isSome (H : HashPrims) (cfg : Ctx) (Name : Str) :
    (GetID H cfg Name).isSome = true := by
  unfold GetID CleanName
  cases hs : CleanName.subNames cfg Name with
  | nil => simp [CleanName.body]
  | cons c0 rest =>
    rw [body_cons_keep H cfg c0 rest nullUint160 (by simp [show IsNull nullUint160 = true from by decide])]
    rfl

/-- Parent scoping, where the code provides it: for a leaf `l` different from the root chain
name and a parent name `q` without NUL byte, the identifier of `leaf` under the identifier
of `p` is the identifier of the dotted name. -/
theorem parent_scoping_of_no_nul (H : HashPrims) (cfg : Ctx) (leaf p l q : Str)
    (hl : CleanName.subNames cfg leaf = [l]) (hp : CleanName.subNames cfg p = [q])
    (hlp : CleanName.subNames cfg (leaf ++ 46 :: p) = [l, q])
    (hq : 0 ∉ q) (hroot : to_lower_copy l ≠ to_lower_copy cfg.VERUS_CHAINNAME) :
    ((GetID2 H cfg p nullUint160).bind (fun r => GetID2 H cfg leaf r.1)).map Prod.fst =
      GetID H cfg (leaf ++ 46 :: p) := by
  have hnull : IsNull nullUint160 = true := by decide
  have e1 : GetID2 H cfg p nullUint160 =
      some (H.Hash160 (H.Hash (to_lower_copy q)), nullUint160) := by
    unfold GetID2 CleanName
    rw [hp, body_cons_keep H cfg q [] nullUint160 (by simp [hnull])]
    simp [GetID.finish, hnull, take_strlen_of_no_nul _ (no_nul_to_lower q hq)]
  have e2 : ∀ P1, GetID2 H cfg leaf P1 = some (GetID.finish H l P1, P1) := by
    intro P1
    unfold GetID2 CleanName
    rw [hl, body_cons_keep H cfg l [] P1 (fun h => hroot (by simpa [back] using h.2))]
    rfl
  have e3 : GetID H cfg (leaf ++ 46 :: p) =
      some (GetID.finish H l (H.Hash160 (H.Hash (to_lower_copy q)))) := by
    unfold GetID CleanName
    rw [hlp, body_cons_keep H cfg l [q] nullUint160 (by simp [hnull])]
    simp [CleanName.step, hnull]
  rw [e1, e3]
  simp [e2]

/-! ## Lemmas on ParseSubNames with either value of addVerus -/

/-- What the validation loop returns when it accepts: the names cut to
`KOMODO_ASSETCHAIN_MAXLEN - 1` bytes, each non-empty and without edge space. -/
theorem checkSubNames_eq_some (cfg : Ctx) (names r : List Str)
    (h : checkSubNames cfg names = some r) :
    r = names.map (fun p => p.take (cfg.KOMODO_ASSETCHAIN_MAXLEN - 1)) ∧
      ∀ p ∈ r, p ≠ [] ∧ p.head? ≠ some 32 ∧ p.getLast? ≠ some 32 := by
  by_cases hall : ∀ p ∈ names.map (fun p => p.take (cfg.KOMODO_ASSETCHAIN_MAXLEN - 1)),
      p ≠ [] ∧ p.head? ≠ some 32 ∧ p.getLast? ≠ some 32
  · rw [checkSubNames_some cfg names hall] at h
    have hr : names.map (fun p => p.take (cfg.KOMODO_ASSETCHAIN_MAXLEN - 1)) = r :=
      Option.some.inj h
    subst hr
    exact ⟨rfl, hall⟩
  · rw [checkSubNames_none cfg names hall] at h
    exact absurd h (by simp)

/-- The vector returned by `ParseSubNames`, for either value of `addVerus`. -/
theorem ParseSubNames_fst_general (cfg : Ctx) (Name ChainOut : Str)
    (displayfilter addVerus : Bool) :
    (ParseSubNames cfg Name ChainOut displayfilter addVerus).1 =
      if Name.any (fun c => (invalidChars displayfilter).contains c) then []
      else if (split 64 Name).length > 2 then []
      else (checkSubNames cfg (ParseSubNames.candidates cfg Name addVerus)).getD [] := by
  unfold ParseSubNames ParseSubNames.candidates
  split
  · rfl
  · have h0 : (split 64 Name).length ≠ 0 := by rw [length_split]; omega
    by_cases h2 : (split 64 Name).length > 2
    · simp only [h2, or_true, if_true]
    · simp only [h0, h2, or_false, if_false]
      cases checkSubNames cfg
          (if addVerus = true then
            addVerusStep (to_lower_copy cfg.VERUS_CHAINNAME)
              (split 46 ((split 64 Name).headD []))
          else split 46 ((split 64 Name).headD [])) with
      | none => rfl
      | some r =>
        simp only [Option.getD_some]
        split
        · split <;> rfl
        · rfl

/-- An accepted name has no invalid byte and at most one `@`, and its vector is what the
validation loop returns. -/
theorem ParseSubNames_accepted (cfg : Ctx) (Name ChainOut : Str)
    (displayfilter addVerus : Bool)
    (hacc : (ParseSubNames cfg Name ChainOut displayfilter addVerus).1 ≠ []) :
    Name.any (fun c => (invalidChars displayfilter).contains c) = false ∧
      (split 64 Name).length ≤ 2 ∧
      checkSubNames cfg (ParseSubNames.candidates cfg Name addVerus) =
        some (ParseSubNames cfg Name ChainOut displayfilter addVerus).1 := by
  rw [ParseSubNames_fst_general] at hacc ⊢
  by_cases hany : Name.any (fun c => (invalidChars displayfilter).contains c) = true
  · rw [if_pos hany] at hacc
    exact absurd rfl hacc
  · rw [if_neg hany] at hacc ⊢
    by_cases h2 : (split 64 Name).length > 2
    · rw [if_pos h2] at hacc
      exact absurd rfl hacc
    · rw [if_neg h2] at hacc ⊢
      refine ⟨by simpa using hany, by omega, ?_⟩
      cases hc : checkSubNames cfg (ParseSubNames.candidates cfg Name addVerus) with
      | none => rw [hc] at hacc; exact absurd rfl hacc
      | some r => rfl

/-- Every component returned by `ParseSubNames` passed the validation loop. -/
theorem ParseSubNames_components (cfg : Ctx) (Name ChainOut : Str)
    (displayfilter addVerus : Bool) :
    ∀ c ∈ (ParseSubNames cfg Name ChainOut displayfilter addVerus).1,
      c ≠ [] ∧ c.head? ≠ some 32 ∧ c.getLast? ≠ some 32 ∧
        c.length ≤ cfg.KOMODO_ASSETCHAIN_MAXLEN - 1 := by
  intro c hc
  have hacc : (ParseSubNames cfg Name ChainOut displayfilter addVerus).1 ≠ [] :=
    List.ne_nil_of_mem hc
  obtain ⟨_, _, hsome⟩ := ParseSubNames_accepted cfg Name ChainOut displayfilter addVerus hacc
  obtain ⟨hmap, hvalid⟩ := checkSubNames_eq_some cfg _ _ hsome
  obtain ⟨h1, h2, h3⟩ := hvalid c hc
  refine ⟨h1, h2, h3, ?_⟩
  rw [hmap] at hc
  obtain ⟨p, _, hp⟩ := List.mem_map.mp hc
  rw [← hp]
  exact List.length_take_le _ _

theorem split_of_count_zero (sep : Nat) (s : Str) (h : s.count sep = 0) : split sep s = [s] := by
  induction s with
  | nil => rfl
  | cons c cs ih =>
    have hc : c ≠ sep := by
      rintro rfl
      simp at h
    have hcs : cs.count sep = 0 := by
      rw [List.count_cons] at h
      omega
    unfold split
    rw [if_neg hc, ih hcs]

/-- The two pieces of a string with exactly one separator. -/
theorem split_of_count_one (sep : Nat) (s : Str) (h : s.count sep = 1) :
    split sep s =
      [s.takeWhile (fun c => c != sep), (s.dropWhile (fun c => c != sep)).drop 1] := by
  induction s with
  | nil => simp at h
  | cons c cs ih =>
    unfold split
    by_cases hc : c = sep
    · subst hc
      have hcs : cs.count c = 0 := by
        rw [List.count_cons] at h
        simpa using h
      rw [if_pos rfl, split_of_count_zero c cs hcs]
      simp [List.takeWhile_cons, List.dropWhile_cons]
    · have hne : (c == sep) = false := by simpa using hc
      have hcs : cs.count sep = 1 := by
        rw [List.count_cons, hne] at h
        simpa using h
      have hb : (c != sep) = true := by simpa using hc
      rw [if_neg hc, ih hcs]
      simp [List.takeWhile_cons, List.dropWhile_cons, hb]

/-- The chain name that `ParseSubNames` leaves for a name with an explicit chain. -/
theorem ParseSubNames_snd_explicit (cfg : Ctx) (Name ChainOut : Str)
    (displayfilter addVerus : Bool)
    (hany : Name.any (fun c => (invalidChars displayfilter).contains c) = false)
    (hlen : (split 64 Name).length = 2) :
    (ParseSubNames cfg Name ChainOut displayfilter addVerus).2 = (split 64 Name).getD 1 [] := by
  unfold ParseSubNames
  simp only [hany, hlen, Bool.false_eq_true, if_false]
  simp only [show ¬ (2 = 0 ∨ 2 > 2) by omega, if_false, decide_True, if_true]
  split
  · rfl
  · simp

/-! ## Lemmas on the chain name left by ParseSubNames -/

theorem joinChain_of_ne_nil (acc : Str) (l : List Str) (hacc : acc ≠ []) :
    joinChain acc l = acc ++ (l.map (fun n => 46 :: n)).flatten := by
  induction l generalizing acc with
  | nil => simp [joinChain]
  | cons n rest ih =>
    have hlen : acc.length ≠ 0 := by simpa using hacc
    unfold joinChain
    rw [if_pos hlen, ih _ (by simp [hacc])]
    simp

theorem intercalate_cons_eq (n : Str) (rest : List Str) :
    List.intercalate [46] (n :: rest) = n ++ (rest.map (fun x => 46 :: x)).flatten := by
  induction rest generalizing n with
  | nil => simp [List.intercalate]
  | cons m rest ih =>
    have := ih m
    simp only [List.intercalate, List.intersperse_cons_cons, List.flatten_cons] at this ⊢
    rw [this]
    simp

/-- The loop that builds the implicit chain name joins non-empty names with dots. -/
theorem joinChain_eq_intercalate (l : List Str) (h : ∀ n ∈ l, n ≠ []) :
    joinChain [] l = List.intercalate [46] l := by
  cases l with
  | nil => rfl
  | cons n rest =>
    have hn : n ≠ [] := h n (List.mem_cons_self _ _)
    unfold joinChain
    simp only [List.length_nil, ne_eq, not_true_eq_false, if_false, List.nil_append]
    rw [joinChain_of_ne_nil n rest hn, intercalate_cons_eq]

/-- The chain name that `ParseSubNames` leaves, without `addVerus`, for an accepted name
without `@`, when `ChainOut` is empty on entry: the only component when it is not the
lowercased root chain name byte for byte, otherwise the components after the first,
joined with dots. -/
theorem ParseSubNames_snd_implicit (cfg : Ctx) (Name : Str) (displayfilter : Bool)
    (hat : Name.count 64 = 0)
    (hacc : (ParseSubNames cfg Name [] displayfilter false).1 ≠ []) :
    (ParseSubNames cfg Name [] displayfilter false).2 =
      if (ParseSubNames cfg Name [] displayfilter false).1.length = 1 ∧
          back (ParseSubNames cfg Name [] displayfilter false).1 ≠
            to_lower_copy cfg.VERUS_CHAINNAME then
        (ParseSubNames cfg Name [] displayfilter false).1.headD []
      else List.intercalate [46] ((ParseSubNames cfg Name [] displayfilter false).1.drop 1) := by
  obtain ⟨hany, _, hsome⟩ := ParseSubNames_accepted cfg Name [] displayfilter false hacc
  have hcomp := ParseSubNames_components cfg Name [] displayfilter false
  have hlen : (split 64 Name).length = 1 := by rw [length_split, hat]
  simp only [ParseSubNames.candidates, Bool.false_eq_true, if_false] at hsome
  revert hsome hacc hcomp
  generalize (ParseSubNames cfg Name [] displayfilter false).1 = r
  intro hacc hcomp hsome
  have hjoin : joinChain [] (r.drop 1) = List.intercalate [46] (r.drop 1) :=
    joinChain_eq_intercalate _ (fun n hn => (hcomp n (List.mem_of_mem_drop hn)).1)
  have hrlen : r.length ≠ 0 := by simpa using hacc
  unfold ParseSubNames
  simp only [hany, hlen, Bool.false_eq_true, if_false]
  simp only [show ¬ (1 = 0 ∨ 1 > 2) by omega, if_false, hsome,
    show decide (1 = 2) = false by decide, Bool.false_eq_true, hjoin]
  by_cases hc : r.length = 1 ∧ back r ≠ to_lower_copy cfg.VERUS_CHAINNAME
  · simp [hc, hrlen]
  · simp [hc, hrlen]

/-! ## Lemmas on TrimTrailing and TrimSpaces -/

/-- What `TrimTrailing` cuts off is made of bytes equal to `ch`. -/
theorem rdropWhile_append_rest (ch : Nat) (l : Str) :
    ∃ t : Str, l = l.rdropWhile (fun c => c == ch) ++ t ∧ ∀ c ∈ t, c = ch := by
  induction l using List.reverseRecOn with
  | nil => exact ⟨[], by simp, by simp⟩
  | append_singleton l a ih =>
    by_cases h : a = ch
    · obtain ⟨t, ht, hall⟩ := ih
      refine ⟨t ++ [a], ?_, ?_⟩
      · rw [List.rdropWhile_concat_pos _ _ _ (by simpa using h), ← List.append_assoc, ← ht]
      · intro c hc
        rcases List.mem_append.mp hc with hc | hc
        · exact hall c hc
        · simp at hc
          rw [hc, h]
    · exact ⟨[], by rw [List.rdropWhile_concat_neg _ _ _ (by simpa using h)]; simp, by simp⟩

theorem rdropWhile_getLast?_ne (ch : Nat) (l : Str) :
    (l.rdropWhile (fun c => c == ch)).getLast? ≠ some ch := by
  intro h
  have hne : l.rdropWhile (fun c => c == ch) ≠ [] := by
    intro h0
    rw [h0] at h
    simp at h
  have hnot := List.rdropWhile_last_not (fun c => c == ch) l hne
  rw [List.getLast?_eq_getLast _ hne] at h
  apply hnot
  simpa using Option.some.inj h

/-- A prefix that does not end with `ch` is not longer than what `rdropWhile` keeps. -/
theorem prefix_length_le_rdropWhile (ch : Nat) (l p : Str) (hp : p <+: l)
    (hlast : p.getLast? ≠ some ch) :
    p.length ≤ (l.rdropWhile (fun c => c == ch)).length := by
  by_contra hlt
  have hlt2 : (l.rdropWhile (fun c => c == ch)).length ≤ p.length := by omega
  obtain ⟨t, ht, hall⟩ := rdropWhile_append_rest ch l
  have hdp : l.rdropWhile (fun c => c == ch) <+: p :=
    List.prefix_of_prefix_length_le (List.rdropWhile_prefix _ _) hp hlt2
  obtain ⟨s, hs⟩ := hdp
  have hsne : s ≠ [] := by
    rintro rfl
    rw [List.append_nil] at hs
    rw [hs] at hlt
    exact hlt (le_refl _)
  have hst : s <+: t := by
    rw [ht, ← hs] at hp
    exact (List.prefix_append_right_inj _).mp hp
  apply hlast
  rw [← hs, List.getLast?_append_of_ne_nil _ hsne, List.getLast?_eq_getLast _ hsne]
  congr 1
  exact hall _ (hst.subset (List.getLast_mem hsne))

theorem TrimSpaces_eq (x : Str) (hlen : x.length < 2 ^ 64) :
    TrimSpaces x = (x.dropWhile (fun c => c == 32)).rdropWhile (fun c => c == 32) := by
  unfold TrimSpaces
  have hl : (x.dropWhile (fun c => c == 32)).length ≤ x.length :=
    (List.dropWhile_suffix _).length_le
  rw [TrimLeading_eq _ _ (by norm_num), TrimTrailing_eq _ _ (by norm_num) (lt_of_le_of_lt hl hlen)]

theorem TrimSpaces_head?_ne (x : Str) (hlen : x.length < 2 ^ 64) :
    (TrimSpaces x).head? ≠ some 32 := by
  rw [TrimSpaces_eq x hlen]
  intro h
  have hne : (x.dropWhile (fun c => c == 32)).rdropWhile (fun c => c == 32) ≠ [] := by
    intro h0
    rw [h0] at h
    simp at h
  have hpre : (x.dropWhile (fun c => c == 32)).rdropWhile (fun c => c == 32) <+:
      x.dropWhile (fun c => c == 32) := List.rdropWhile_prefix _ _
  obtain ⟨t, ht⟩ := hpre
  have hhead : (x.dropWhile (fun c => c == 32)).head? = some 32 := by
    rw [← ht, List.head?_append_of_ne_nil _ hne, h]
  have hnot := List.head?_dropWhile_not (fun c => c == 32) x
  rw [hhead] at hnot
  simp at hnot

theorem TrimSpaces_fixed_iff (x : Str) (hlen : x.length < 2 ^ 64) :
    TrimSpaces x = x ↔ x = [] ∨ (x.head? ≠ some 32 ∧ x.getLast? ≠ some 32) := by
  have h := trim_check x hlen
  unfold TrimSpaces
  constructor
  · intro he
    exact Or.inr (h.mp he.symm)
  · rintro (rfl | hx)
    · exact (h.mpr (by simp)).symm
    · exact (h.mpr hx).symm

theorem TrimSpaces_idem (x : Str) (hlen : x.length < 2 ^ 64) :
    TrimSpaces (TrimSpaces x) = TrimSpaces x := by
  have hle : (TrimSpaces x).length ≤ x.length := by
    rw [TrimSpaces_eq x hlen]
    exact le_trans (List.rdropWhile_prefix _ _).length_le (List.dropWhile_suffix _).length_le
  have hlen2 : (TrimSpaces x).length < 2 ^ 64 := lt_of_le_of_lt hle hlen
  rw [TrimSpaces_fixed_iff _ hlen2]
  refine Or.inr ⟨TrimSpaces_head?_ne x hlen, ?_⟩
  rw [TrimSpaces_eq x hlen]
  exact rdropWhile_getLast?_ne 32 _

/-! ## Lemmas on the drop of the root component and on rejected names -/

theorem GetID_of_rejected (H : HashPrims) (cfg : Ctx) (Name : Str)
    (h : CleanName.subNames cfg Name = []) :
    GetID H cfg Name = some (H.Hash160 (H.Hash [])) := by
  have hnull : IsNull nullUint160 = true := by decide
  simp [GetID, CleanName, CleanName.body, h, GetID.finish, hnull, to_lower_copy, strlen]

theorem finish_nil_of_ne_null (H : HashPrims) (P : Blob) (hP : IsNull P = false) :
    GetID.finish H [] P = H.Hash160 (H.Hash (P ++ H.Hash [])) := by
  simp [GetID.finish, hP, to_lower_copy, strlen]

/-- The sub-names of a name without `.`, `@` and invalid byte: the name cut to
`KOMODO_ASSETCHAIN_MAXLEN - 1` bytes, or nothing when the cut is empty. -/
theorem subNames_single (cfg : Ctx) (c : Str) (hdot : c.count 46 = 0) (hat : c.count 64 = 0)
    (hinv : ∀ x ∈ c, x ∉ invalidChars cfg.ParseSubNames_displayfilter)
    (hsp : (c.take (cfg.KOMODO_ASSETCHAIN_MAXLEN - 1)).head? ≠ some 32 ∧
      (c.take (cfg.KOMODO_ASSETCHAIN_MAXLEN - 1)).getLast? ≠ some 32) :
    CleanName.subNames cfg c =
      if c.take (cfg.KOMODO_ASSETCHAIN_MAXLEN - 1) = [] then []
      else [c.take (cfg.KOMODO_ASSETCHAIN_MAXLEN - 1)] := by
  have htw : c.takeWhile (fun x => x != 64) = c := by
    rw [List.takeWhile_eq_self_iff]
    intro x hx
    have : x ≠ 64 := by
      rintro rfl
      exact absurd (List.count_pos_iff.mpr hx) (by omega)
    simpa using this
  unfold CleanName.subNames ParseSubNames_addVerus
  rw [ParseSubNames_fst cfg c [] _ hinv (by omega), htw, split_of_count_zero 46 c hdot]
  by_cases he : c.take (cfg.KOMODO_ASSETCHAIN_MAXLEN - 1) = []
  · rw [if_pos he, checkSubNames_none cfg [c] (by simp [he])]
    rfl
  · have hall : ∀ p ∈ [c].map (fun p => p.take (cfg.KOMODO_ASSETCHAIN_MAXLEN - 1)),
        p ≠ [] ∧ p.head? ≠ some 32 ∧ p.getLast? ≠ some 32 := by
      intro p hp
      simp only [List.map_cons, List.map_nil, List.mem_singleton] at hp
      subst hp
      exact ⟨he, hsp⟩
    rw [if_neg he, checkSubNames_some cfg [c] hall]
    rfl

/-- Where `CleanName` returns the cut name: for a name without `.`, `@` and invalid byte
whose cut has no edge space, when `Parent` is null or the cut is not the root chain name. -/
theorem CleanName_truncates (H : HashPrims) (cfg : Ctx) (c : Str) (P : Blob)
    (displayfilter : Bool) (hdot : c.count 46 = 0) (hat : c.count 64 = 0)
    (hinv : ∀ x ∈ c, x ∉ invalidChars cfg.ParseSubNames_displayfilter)
    (hsp : (c.take (cfg.KOMODO_ASSETCHAIN_MAXLEN - 1)).head? ≠ some 32 ∧
      (c.take (cfg.KOMODO_ASSETCHAIN_MAXLEN - 1)).getLast? ≠ some 32)
    (hkeep : IsNull P = true ∨ to_lower_copy (c.take (cfg.KOMODO_ASSETCHAIN_MAXLEN - 1)) ≠
      to_lower_copy cfg.VERUS_CHAINNAME) :
    CleanName H cfg c P displayfilter =
      some (c.take (cfg.KOMODO_ASSETCHAIN_MAXLEN - 1), P) := by
  unfold CleanName
  rw [subNames_single cfg c hdot hat hinv hsp]
  by_cases he : c.take (cfg.KOMODO_ASSETCHAIN_MAXLEN - 1) = []
  · rw [if_pos he, he]
    rfl
  · rw [if_neg he, body_cons_keep H cfg _ [] P]
    · rfl
    · rintro ⟨h1, h2⟩
      rcases hkeep with hk | hk
      · simp [hk] at h1
      · exact hk (by simpa [back] using h2)

/-! ## Lemmas on trimming for arguments below and above 128 -/

/-- For an argument of 128 or more `TrimLeading` removes nothing. -/
theorem TrimLeading_of_not_ascii (x : Str) (ch : Nat) (hch : 128 ≤ ch) :
    TrimLeading x ch = x := by
  have h0 : TrimLeading.removeSpaces ch x = 0 := by
    cases x with
    | nil => rfl
    | cons c cs =>
      unfold TrimLeading.removeSpaces
      rw [charNe_of_ge c ch hch, if_pos rfl]
  unfold TrimLeading
  simp [h0]

/-- For an argument of 128 or more `TrimTrailing` removes nothing. -/
theorem TrimTrailing_of_not_ascii (x : Str) (ch : Nat) (hch : 128 ≤ ch)
    (hlen : x.length < 2 ^ 64) : TrimTrailing x ch = x := by
  have hr : TrimTrailing.removeSpaces x ch x.length = ((x.length : Nat) : Int) - 1 := by
    cases x.length with
    | zero => simp [TrimTrailing.removeSpaces]
    | succ k =>
      unfold TrimTrailing.removeSpaces
      rw [charNe_of_ge _ ch hch, if_pos rfl]
      push_cast
      ring
  unfold TrimTrailing
  simp only []
  rw [hr, size_t_resize x.length x.length (le_refl _) hlen]
  simp [resize]

/-- What `TrimTrailing` does for an argument below 128 and a string whose size fits the
`int` counter: the length passed to `resize` is `removeSpaces + 1` and at most the size,
the result is the longest prefix that does not end with `ch`, and `TrimSpaces(x) = x`
exactly when `x` is empty or neither starts nor ends with a space. -/
theorem TrimTrailing_exact_ascii (x : Str) (ch : Nat) (hlen : x.length < 2 ^ 31)
    (hch : ch < 128) :
    let removeSpaces := TrimTrailing.removeSpaces x ch x.length
    let newSize :=
      size_t ((x.length : Int) - size_t (size_t ((x.length : Int) - 1) - size_t removeSpaces))
    (-1 ≤ removeSpaces ∧ (newSize : Int) = removeSpaces + 1 ∧ newSize ≤ x.length) ∧
      (TrimTrailing x ch <+: x ∧ (TrimTrailing x ch).getLast? ≠ some ch ∧
        ∀ p : Str, p <+: x → p.getLast? ≠ some ch →
          p.length ≤ (TrimTrailing x ch).length) ∧
      (TrimSpaces x = x ↔ x = [] ∨ (x.head? ≠ some 32 ∧ x.getLast? ≠ some 32)) := by
  intro removeSpaces newSize
  have h64 : x.length < 2 ^ 64 := lt_trans hlen (by norm_num)
  obtain ⟨r, h1, h2, _⟩ := removeSpaces_trailing x ch hch x.length (le_refl _)
  have hnew : newSize = r := by
    show size_t ((x.length : Int) - size_t (size_t ((x.length : Int) - 1) -
      size_t (TrimTrailing.removeSpaces x ch x.length))) = r
    rw [h1]
    exact size_t_resize x.length r h2 h64
  have hrs : removeSpaces = (r : Int) - 1 := h1
  refine ⟨⟨by omega, by omega, by omega⟩, ⟨?_, ?_, ?_⟩, TrimSpaces_fixed_iff x h64⟩
  · rw [TrimTrailing_eq x ch hch h64]
    exact List.rdropWhile_prefix _ _
  · rw [TrimTrailing_eq x ch hch h64]
    exact rdropWhile_getLast?_ne ch x
  · intro p hp hlast
    rw [TrimTrailing_eq x ch hch h64]
    exact prefix_length_le_rdropWhile ch x p hp hlast

/-! ## The drop of the root component against the folding rule of the specification -/

/-- What `CleanName` returns in terms of the sub-names it keeps, when no ancestor has a NUL
byte: sub-name 0 and the fold of the specification over the ancestors. -/
theorem CleanName_eq_specFold (H : HashPrims) (cfg : Ctx) (Name : Str) (P : Blob)
    (displayfilter : Bool) (c0 : Str) (rest : List Str)
    (hk : CleanName.kept cfg (CleanName.subNames cfg Name) P = c0 :: rest)
    (hnul : ∀ c ∈ rest, 0 ∉ c) :
    CleanName H cfg Name P displayfilter = some (c0, specFold H P rest) := by
  unfold CleanName
  rw [body_eq_of_kept H cfg _ P c0 rest hk, foldr_step_eq_specFold H P rest hnul]

/-- The drop of the root component, where the code follows the folding rule of the
specification: for sub-names `c0 :: rest` without NUL byte in `rest`, a non-null `Parent`
and a last sub-name equal to the root chain name up to case, with `rest` non-empty,
`CleanName` returns `c0` and the fold over `rest` without its last element; for a null
`Parent` it returns `c0` and the fold over all of `rest`. -/
theorem CleanName_drop_specFold (H : HashPrims) (cfg : Ctx) (Name : Str) (P : Blob)
    (displayfilter : Bool) (c0 : Str) (rest : List Str)
    (hs : CleanName.subNames cfg Name = c0 :: rest) (hnul : ∀ c ∈ rest, 0 ∉ c) :
    (IsNull P = false → rest ≠ [] →
        to_lower_copy (back (c0 :: rest)) = to_lower_copy cfg.VERUS_CHAINNAME →
        CleanName H cfg Name P displayfilter = some (c0, specFold H P rest.dropLast)) ∧
      (IsNull P = true →
        CleanName H cfg Name P displayfilter = some (c0, specFold H P rest)) := by
  constructor
  · intro hP hne hroot
    apply CleanName_eq_specFold
    · rw [hs]
      unfold CleanName.kept
      rw [if_pos ⟨by simp [hP], hroot⟩]
      cases rest with
      | nil => exact absurd rfl hne
      | cons c1 rest1 => rfl
    · intro c hc
      exact hnul c (List.mem_of_mem_dropLast hc)
  · intro hP
    apply CleanName_eq_specFold
    · rw [hs]
      unfold CleanName.kept
      rw [if_neg (by simp [hP])]
    · exact hnul

/-! ## Claims -/

/-- C1 (the code at failing inputs): for the parent name `b\0c`, with a NUL byte, the
two-argument route scopes the leaf under `Hash160(Hash("b"))`, cut at the NUL byte, while
`GetID("a.b\0c")` scopes it under `Hash160(Hash("b\0c"))`, all bytes, and with the example
primitives the two identifiers differ; for the leaf `VRSC`, the root chain name, the
two-argument route reads `subNames[0]` from an empty vector while `GetID("VRSC.b")`
returns an identifier. -/
theorem C1_parent_scoping_diverges :
    (∀ H : HashPrims,
      GetID2 H exampleCtx [98, 0, 99] nullUint160 =
          some (H.Hash160 (H.Hash [98]), nullUint160) ∧
        GetID H exampleCtx ([97] ++ 46 :: [98, 0, 99]) =
          some (GetID.finish H [97] (H.Hash160 (H.Hash [98, 0, 99])))) ∧
      GetID.scoped exampleHash exampleCtx [97] [98, 0, 99] ≠
        GetID exampleHash exampleCtx ([97] ++ 46 :: [98, 0, 99]) ∧
      GetID.scoped exampleHash exampleCtx (lit "VRSC") (lit "b") = none ∧
      (GetID exampleHash exampleCtx (lit "VRSC" ++ 46 :: lit "b")).isSome = true := by
  refine ⟨fun H => ⟨?_, ?_⟩, by decide, by decide, by decide⟩
  · have hs : CleanName.subNames exampleCtx [98, 0, 99] = [[98, 0, 99]] := by decide
    unfold GetID2 CleanName
    rw [hs, body_cons_keep H exampleCtx _ _ _ (by decide)]
    rfl
  · have hs : CleanName.subNames exampleCtx ([97] ++ 46 :: [98, 0, 99]) =
        [[97], [98, 0, 99]] := by decide
    unfold GetID CleanName
    rw [hs, body_cons_keep H exampleCtx _ _ _ (by decide)]
    rfl

/-- C2 (the code at failing inputs): for the name `a\0b`, with a NUL byte, and a null
parent, `GetID` returns `Hash160(Hash("a"))`, the hash of the bytes before the NUL byte,
while the folding rule of the claim gives `Hash160(Hash("a\0b"))`, the hash of all bytes,
and with the example primitives the two differ; for the name `VRSC`, the root chain name,
and a non-null parent, the only component is dropped and `GetID` reads `subNames[0]` from
an empty vector. -/
theorem C2_folding_rule_diverges :
    (∀ H : HashPrims,
      GetID2 H exampleCtx [97, 0, 98] nullUint160 =
          some (H.Hash160 (H.Hash [97]), nullUint160) ∧
        specFold H nullUint160 [[97, 0, 98]] = H.Hash160 (H.Hash [97, 0, 98])) ∧
      GetID2 exampleHash exampleCtx [97, 0, 98] nullUint160 ≠
        some (specFold exampleHash nullUint160 [[97, 0, 98]], nullUint160) ∧
      GetID2 exampleHash exampleCtx (lit "VRSC") exampleNamespace = none := by
  refine ⟨fun H => ⟨?_, rfl⟩, by decide, by decide⟩
  have hs : CleanName.subNames exampleCtx [97, 0, 98] = [[97, 0, 98]] := by decide
  unfold GetID2 CleanName
  rw [hs, body_cons_keep H exampleCtx _ _ _ (by decide)]
  rfl

/-- C3 (the code at a failing input): `GetDataKey` scopes the key under the identifier that
`GetID` gives to the separator, and the separator `::` is rejected by the parser, so that
identifier is the one of the empty name, `Hash160(Hash(N ++ Hash("")))`; with the example
primitives the data key of `key` differs from the identifier of `key` under
`Hash160(Hash(N ++ Hash("::")))`. -/
theorem C3_separator_hashed_as_empty :
    (∀ (H : HashPrims) (cfg : Ctx) (keyName : Str),
      GetDataKey H cfg keyName exampleNamespace =
        (GetID2 H cfg keyName
          (H.Hash160 (H.Hash (exampleNamespace ++ H.Hash [])))).map Prod.fst) ∧
      GetDataKey exampleHash exampleCtx (lit "key") exampleNamespace ≠
        (GetID2 exampleHash exampleCtx (lit "key")
          (exampleHash.Hash160 (exampleHash.Hash
            (exampleNamespace ++ exampleHash.Hash DATA_KEY_SEPARATOR)))).map Prod.fst := by
  have hN : IsNull exampleNamespace = false := by decide
  refine ⟨fun H cfg keyName => ?_, by decide⟩
  rw [GetDataKey_eq, hN]
  simp [GetID.finish, hN, to_lower_copy, strlen]

/-- C5: two names with the same ASCII-lowercased form have the same identifier, for the
one-argument `GetID` and for the two-argument `GetID` under every starting parent: the
results are equal as modelled, that is the identifier returned and the parent left, or
no result on both sides. -/
theorem C5_case_invariance (H : HashPrims) (cfg : Ctx) (n1 n2 : Str)
    (h : to_lower_copy n1 = to_lower_copy n2) :
    GetID H cfg n1 = GetID H cfg n2 ∧ ∀ P : Blob, GetID2 H cfg n1 P = GetID2 H cfg n2 P := by
  constructor
  · rw [← GetID_to_lower H cfg n1, ← GetID_to_lower H cfg n2, h]
  · intro P
    rw [← GetID2_to_lower H cfg n1 P, ← GetID2_to_lower H cfg n2 P, h]

/-- Witness of C5 at `Leaf.Parent` and `LEAF.PARENT`. -/
theorem C5_case_invariance_witness :
    to_lower_copy (lit "Leaf.Parent") = to_lower_copy (lit "LEAF.PARENT") ∧
      GetID exampleHash exampleCtx (lit "Leaf.Parent") =
        GetID exampleHash exampleCtx (lit "LEAF.PARENT") :=
  ⟨by decide, (C5_case_invariance exampleHash exampleCtx _ _ (by decide)).1⟩

/-- C6 (the code at a failing input): for the accepted name `VRSC`, equal to the root chain
name, and a non-null parent, `CleanName` drops the only sub-name and then reads
`subNames[0]` from the empty vector. -/
theorem C6_leaf_read_out_of_bounds (H : HashPrims) (displayfilter : Bool) :
    CleanName.subNames exampleCtx (lit "VRSC") = [lit "VRSC"] ∧
      CleanName H exampleCtx (lit "VRSC") exampleNamespace displayfilter = none := by
  have hs : CleanName.subNames exampleCtx (lit "VRSC") = [lit "VRSC"] := by decide
  refine ⟨hs, ?_⟩
  unfold CleanName
  rw [hs, body_drop H exampleCtx _ _ (by simp) (by decide)]
  rfl

/-- C7: for a name that `ParseSubNames` rejects (empty vector), `CleanName` returns the empty
string and leaves `Parent` as it was, whatever `Parent` is. -/
theorem C7_failure_leaves_parent (H : HashPrims) (cfg : Ctx) (Name : Str) (Parent : Blob)
    (displayfilter : Bool) (h : CleanName.subNames cfg Name = []) :
    CleanName H cfg Name Parent displayfilter = some ([], Parent) := by
  simp [CleanName, CleanName.body, h]

/-- Witness of C7 at the name `a/b` and a non-null parent. -/
theorem C7_failure_leaves_parent_witness :
    CleanName.subNames exampleCtx (lit "a/b") = [] ∧
      CleanName exampleHash exampleCtx (lit "a/b") [1, 2, 3] true = some ([], [1, 2, 3]) :=
  ⟨by decide, C7_failure_leaves_parent exampleHash exampleCtx (lit "a/b") [1, 2, 3] true (by decide)⟩

/-- C8: a name that contains one of the bytes `\ / : * ? " < > |` at any position is
rejected by `ParseSubNames`, whatever `displayfilter`, `addVerus` and `ChainOut` are: the
returned vector is empty. -/
theorem C8_invalid_character_rejected (cfg : Ctx) (Name ChainOut : Str)
    (displayfilter addVerus : Bool)
    (h : ∃ c ∈ Name, c ∈ [92, 47, 58, 42, 63, 34, 60, 62, 124]) :
    (ParseSubNames cfg Name ChainOut displayfilter addVerus).1 = [] := by
  exact ParseSubNames_of_invalid cfg Name ChainOut displayfilter addVerus h

/-- Witness of C8 at the name `a/b`. -/
theorem C8_invalid_character_rejected_witness :
    (∃ c ∈ lit "a/b", c ∈ [92, 47, 58, 42, 63, 34, 60, 62, 124]) ∧
      (ParseSubNames exampleCtx (lit "a/b") [] false false).1 = [] :=
  ⟨⟨47, by decide, by decide⟩,
    C8_invalid_character_rejected exampleCtx (lit "a/b") [] false false ⟨47, by decide, by decide⟩⟩

/-- C9: a name with two or more `@` bytes is rejected by `ParseSubNames`: the returned vector is
empty. -/
theorem C9_multi_at_rejected (cfg : Ctx) (Name ChainOut : Str) (displayfilter addVerus : Bool)
    (h : 2 ≤ Name.count 64) :
    (ParseSubNames cfg Name ChainOut displayfilter addVerus).1 = [] := by
  unfold ParseSubNames
  split
  · rfl
  · have hlen : (split 64 Name).length > 2 := by rw [length_split]; omega
    simp only []
    rw [if_pos (Or.inr hlen)]

/-- Witness of C9 at the name `a@b@c`. -/
theorem C9_multi_at_rejected_witness :
    2 ≤ (lit "a@b@c").count 64 ∧ (ParseSubNames exampleCtx (lit "a@b@c") [] false true).1 = [] :=
  ⟨by decide, C9_multi_at_rejected exampleCtx (lit "a@b@c") [] false true (by decide)⟩

/-- C10: for a name without invalid byte and with at most one `@`, `ParseSubNames` without
`addVerus` returns a non-empty vector exactly when every `.`-separated piece of the part
before `@`, cut to `KOMODO_ASSETCHAIN_MAXLEN - 1` bytes, is non-empty and neither starts
nor ends with a space; the vector is then the cut pieces, in left-to-right order. -/
theorem C10_acceptance_rule (cfg : Ctx) (Name ChainOut : Str) (displayfilter : Bool)
    (hinv : ∀ c ∈ Name, c ∉ invalidChars displayfilter) (hat : Name.count 64 ≤ 1) :
    let pieces := (split 46 (Name.takeWhile (fun c => c != 64))).map
      (fun p => p.take (cfg.KOMODO_ASSETCHAIN_MAXLEN - 1))
    let ret := (ParseSubNames cfg Name ChainOut displayfilter false).1
    (ret ≠ [] ↔ ∀ p ∈ pieces, p ≠ [] ∧ p.head? ≠ some 32 ∧ p.getLast? ≠ some 32) ∧
      (ret ≠ [] → ret = pieces) := by
  intro pieces ret
  have hret : ret = (checkSubNames cfg (split 46 (Name.takeWhile (fun c => c != 64)))).getD [] :=
    ParseSubNames_fst cfg Name ChainOut displayfilter hinv hat
  by_cases hall : ∀ p ∈ pieces, p ≠ [] ∧ p.head? ≠ some 32 ∧ p.getLast? ≠ some 32
  · have hsome := checkSubNames_some cfg _ hall
    rw [hsome, Option.getD_some] at hret
    have hne : ret ≠ [] := by
      rw [hret]
      simpa using split_ne_nil 46 _
    exact ⟨⟨fun _ => hall, fun _ => hne⟩, fun _ => hret⟩
  · have hnone := checkSubNames_none cfg _ hall
    rw [hnone, Option.getD_none] at hret
    exact ⟨⟨fun h => absurd hret h, fun h => absurd h hall⟩, fun h => absurd hret h⟩

/-- Witness of C10 at the name `a b.c`, which yields the components `a b` and `c`. -/
theorem C10_acceptance_rule_witness :
    (∀ c ∈ lit "a b.c", c ∉ invalidChars false) ∧ (lit "a b.c").count 64 ≤ 1 ∧
      (ParseSubNames exampleCtx (lit "a b.c") [] false false).1 = [lit "a b", lit "c"] :=
  have h := C10_acceptance_rule exampleCtx (lit "a b.c") [] false (by decide) (by decide)
  ⟨by decide, by decide, (h.2 (by decide)).trans (by decide)⟩

/-- The examples of C10: ` a.b` and `a .b` are rejected, `a b.c` is accepted. -/
theorem ParseSubNames_edge_space_examples :
    (ParseSubNames exampleCtx (lit " a.b") [] false false).1 = [] ∧
      (ParseSubNames exampleCtx (lit "a .b") [] false false).1 = [] ∧
      (ParseSubNames exampleCtx (lit "a b.c") [] false false).1 = [lit "a b", lit "c"] := by
  decide

/-- C11: for a name `c` without `.`, `@` and invalid byte that is longer than
`KOMODO_ASSETCHAIN_MAXLEN - 1` bytes and whose first `KOMODO_ASSETCHAIN_MAXLEN - 1` bytes
neither start nor end with a space, `CleanName` returns exactly these bytes, whatever
follows them and whatever `Parent` is, and leaves `Parent` as it was; the root chain name
is taken not to have exactly `KOMODO_ASSETCHAIN_MAXLEN - 1` bytes. -/
theorem C11_truncation_before_validation (H : HashPrims) (cfg : Ctx) (c : Str) (P : Blob)
    (displayfilter : Bool) (hdot : c.count 46 = 0) (hat : c.count 64 = 0)
    (hinv : ∀ x ∈ c, x ∉ invalidChars cfg.ParseSubNames_displayfilter)
    (hlong : c.length > cfg.KOMODO_ASSETCHAIN_MAXLEN - 1)
    (hsp : (c.take (cfg.KOMODO_ASSETCHAIN_MAXLEN - 1)).head? ≠ some 32 ∧
      (c.take (cfg.KOMODO_ASSETCHAIN_MAXLEN - 1)).getLast? ≠ some 32)
    (hroot : cfg.VERUS_CHAINNAME.length ≠ cfg.KOMODO_ASSETCHAIN_MAXLEN - 1) :
    CleanName H cfg c P displayfilter =
        some (c.take (cfg.KOMODO_ASSETCHAIN_MAXLEN - 1), P) ∧
      (c.take (cfg.KOMODO_ASSETCHAIN_MAXLEN - 1)).length =
        cfg.KOMODO_ASSETCHAIN_MAXLEN - 1 := by
  have hlen : (c.take (cfg.KOMODO_ASSETCHAIN_MAXLEN - 1)).length =
      cfg.KOMODO_ASSETCHAIN_MAXLEN - 1 := by
    rw [List.length_take]
    omega
  refine ⟨CleanName_truncates H cfg c P displayfilter hdot hat hinv hsp (Or.inr ?_), hlen⟩
  intro heq
  have h := congrArg List.length heq
  simp only [to_lower_copy, List.length_map] at h
  exact hroot (by omega)

/-- Witness of C11 at a name of 65 letters `a` followed by a space, under a non-null parent:
the 64 letters are returned. -/
theorem C11_truncation_before_validation_witness :
    (List.replicate 65 97 ++ [32]).length > exampleCtx.KOMODO_ASSETCHAIN_MAXLEN - 1 ∧
      CleanName exampleHash exampleCtx (List.replicate 65 97 ++ [32]) exampleNamespace true =
        some (List.replicate 64 97, exampleNamespace) :=
  ⟨by decide,
    (C11_truncation_before_validation exampleHash exampleCtx (List.replicate 65 97 ++ [32])
      exampleNamespace true (by decide) (by decide) (by decide) (by decide) (by decide)
      (by decide)).1.trans (by decide)⟩

/-- C12: for every name and both values of `displayfilter` and `addVerus`, every component of
the vector that `ParseSubNames` returns is non-empty, has no leading and no trailing space
and has at most `KOMODO_ASSETCHAIN_MAXLEN - 1` bytes; a chain name appended by `addVerus`
goes through the same validation loop. -/
theorem C12_component_invariant (cfg : Ctx) (Name ChainOut : Str)
    (displayfilter addVerus : Bool) :
    ∀ c ∈ (ParseSubNames cfg Name ChainOut displayfilter addVerus).1,
      c ≠ [] ∧ c.head? ≠ some 32 ∧ c.getLast? ≠ some 32 ∧
        c.length ≤ cfg.KOMODO_ASSETCHAIN_MAXLEN - 1 :=
  ParseSubNames_components cfg Name ChainOut displayfilter addVerus

/-- Witness of C12 at the name `a b.c` with `addVerus`: the appended component `vrsc` is in
the returned vector and satisfies the invariant. -/
theorem C12_component_invariant_witness :
    lit "vrsc" ∈ (ParseSubNames exampleCtx (lit "a b.c") [] false true).1 ∧
      (lit "vrsc" ≠ [] ∧ (lit "vrsc").head? ≠ some 32 ∧ (lit "vrsc").getLast? ≠ some 32 ∧
        (lit "vrsc").length ≤ exampleCtx.KOMODO_ASSETCHAIN_MAXLEN - 1) :=
  ⟨by decide,
    C12_component_invariant exampleCtx (lit "a b.c") [] false true (lit "vrsc") (by decide)⟩

/-- C13: trimming is idempotent, `TrimSpaces(TrimSpaces(x)) = TrimSpaces(x)`, for every string
whose size fits the `int` counter of `TrimTrailing`; the empty string and strings of
spaces are included. -/
theorem C13_TrimSpaces_idempotent (x : Str) (hlen : x.length < 2 ^ 31) :
    TrimSpaces (TrimSpaces x) = TrimSpaces x :=
  TrimSpaces_idem x (lt_trans hlen (by norm_num))

/-- Witness of C13 at a string with spaces on both sides and at a string of spaces. -/
theorem C13_TrimSpaces_idempotent_witness :
    (lit "  a b ").length < 2 ^ 31 ∧
      TrimSpaces (TrimSpaces (lit "  a b ")) = TrimSpaces (lit "  a b ") ∧
      TrimSpaces (TrimSpaces (lit "   ")) = TrimSpaces (lit "   ") ∧
      TrimSpaces (lit "  a b ") = lit "a b" ∧ TrimSpaces (lit "   ") = [] :=
  ⟨by decide, C13_TrimSpaces_idempotent (lit "  a b ") (by decide),
    C13_TrimSpaces_idempotent (lit "   ") (by decide), by decide, by decide⟩

/-- C14 (the code at a failing input): for the name `VRSC`, the root chain name, called
without `addVerus` and with an empty `ChainOut`, `ParseSubNames` compares the component
with the lowercased chain name `vrsc` byte for byte, finds them different and leaves the
chain name `VRSC`, not the empty string; only the spelling `vrsc` gives the empty chain
name. -/
theorem C14_root_name_chain_not_empty (displayfilter : Bool) :
    ParseSubNames exampleCtx (lit "VRSC") [] displayfilter false = ([lit "VRSC"], lit "VRSC") ∧
      ParseSubNames exampleCtx (lit "vrsc") [] displayfilter false = ([lit "vrsc"], []) := by
  cases displayfilter <;> decide

/-- C15 (as stated, refuted): with `addVerus`, the name `a` gives the components `a` and
`vrsc`, the lowercased chain name, not `VRSC`; and a name of 65 letters followed by a dot
gives the first 64 letters, not the 65-letter piece. -/
theorem C15_suffix_lowercased_and_cut :
    (ParseSubNames exampleCtx (lit "a") [] false true).1 = [lit "a", lit "vrsc"] ∧
      (ParseSubNames exampleCtx (lit "a") [] false true).1 ≠
        split 46 (lit "a") ++ [exampleCtx.VERUS_CHAINNAME] ∧
      (ParseSubNames exampleCtx (List.replicate 65 97 ++ [46]) [] false true).1 =
        [List.replicate 64 97] ∧
      (ParseSubNames exampleCtx (List.replicate 65 97 ++ [46]) [] false true).1 ≠
        (split 46 (List.replicate 65 97 ++ [46])).dropLast := by
  decide

/-- C15 (amended): for a name that `ParseSubNames` accepts with `addVerus`, if the lowercased
last `.`-piece of the part before `@` is non-empty and differs from the lowercased root
chain name, the returned vector is the pieces followed by the lowercased root chain name,
each cut to `KOMODO_ASSETCHAIN_MAXLEN - 1` bytes; if that last piece is empty, it is the
pieces without the last one, each cut likewise, and nothing is appended. -/
theorem C15_root_suffix_rule (cfg : Ctx) (Name ChainOut : Str) (displayfilter : Bool)
    (hacc : (ParseSubNames cfg Name ChainOut displayfilter true).1 ≠ []) :
    let pieces := split 46 (Name.takeWhile (fun c => c != 64))
    let lastPiece := to_lower_copy (back pieces)
    let ret := (ParseSubNames cfg Name ChainOut displayfilter true).1
    (lastPiece ≠ [] ∧ lastPiece ≠ to_lower_copy cfg.VERUS_CHAINNAME →
        ret = (pieces ++ [to_lower_copy cfg.VERUS_CHAINNAME]).map
          (fun p => p.take (cfg.KOMODO_ASSETCHAIN_MAXLEN - 1))) ∧
      (lastPiece = [] →
        ret = pieces.dropLast.map (fun p => p.take (cfg.KOMODO_ASSETCHAIN_MAXLEN - 1))) := by
  intro pieces lastPiece ret
  obtain ⟨_, _, hsome⟩ := ParseSubNames_accepted cfg Name ChainOut displayfilter true hacc
  have hmap := (checkSubNames_eq_some cfg _ _ hsome).1
  simp only [ParseSubNames.candidates, if_true, headD_split] at hmap
  constructor
  · intro h
    have hstep : addVerusStep (to_lower_copy cfg.VERUS_CHAINNAME) pieces =
        pieces ++ [to_lower_copy cfg.VERUS_CHAINNAME] := by
      unfold addVerusStep
      simp only []
      rw [if_pos h]
    rw [hstep] at hmap
    exact hmap
  · intro h
    have hstep : addVerusStep (to_lower_copy cfg.VERUS_CHAINNAME) pieces = pieces.dropLast := by
      unfold addVerusStep
      simp only []
      rw [if_neg (fun h2 => h2.1 h), if_pos h]
    rw [hstep] at hmap
    exact hmap

/-- Witness of C15 (amended) at the names `a` and `a.b.`. -/
theorem C15_root_suffix_rule_witness :
    (ParseSubNames exampleCtx (lit "a") [] false true).1 ≠ [] ∧
      (ParseSubNames exampleCtx (lit "a") [] false true).1 = [lit "a", lit "vrsc"] ∧
      (ParseSubNames exampleCtx (lit "a.b.") [] false true).1 = [lit "a", lit "b"] :=
  ⟨by decide,
    ((C15_root_suffix_rule exampleCtx (lit "a") [] false (by decide)).1 (by decide)).trans
      (by decide),
    ((C15_root_suffix_rule exampleCtx (lit "a.b.") [] false (by decide)).2 (by decide)).trans
      (by decide)⟩

/-- C16: for a name with exactly one `@` that `ParseSubNames` accepts, with either value of
`addVerus`, the chain name left in `ChainOut` is the text after the `@`, byte for byte. -/
theorem C16_explicit_chain_unmodified (cfg : Ctx) (Name ChainOut : Str)
    (displayfilter addVerus : Bool) (hat : Name.count 64 = 1)
    (hacc : (ParseSubNames cfg Name ChainOut displayfilter addVerus).1 ≠ []) :
    (ParseSubNames cfg Name ChainOut displayfilter addVerus).2 =
      (Name.dropWhile (fun c => c != 64)).drop 1 := by
  obtain ⟨hany, _, _⟩ := ParseSubNames_accepted cfg Name ChainOut displayfilter addVerus hacc
  have hlen : (split 64 Name).length = 2 := by rw [length_split, hat]
  rw [ParseSubNames_snd_explicit cfg Name ChainOut displayfilter addVerus hany hlen,
    split_of_count_one 64 Name hat]
  rfl

/-- Witness of C16 at the name `a.b@ C.d.` with `addVerus` set: the chain name keeps its
leading space and its trailing dot, and gets no root chain name. -/
theorem C16_explicit_chain_unmodified_witness :
    (lit "a.b@ C.d.").count 64 = 1 ∧
      (ParseSubNames exampleCtx (lit "a.b@ C.d.") [] false true).1 ≠ [] ∧
      (ParseSubNames exampleCtx (lit "a.b@ C.d.") [] false true).2 = lit " C.d." :=
  ⟨by decide, by decide,
    (C16_explicit_chain_unmodified exampleCtx (lit "a.b@ C.d.") [] false true (by decide)
      (by decide)).trans (by decide)⟩

/-- C17 (the code at a failing input): for the name `a.b\0c.VRSC` and a non-null parent `P`
the last sub-name is dropped, and the parent left is `Hash160(Hash(P ++ Hash("b")))`, the
ancestor cut at its NUL byte, while folding the list `a`, `b\0c` by the rule of the
specification leaves `Hash160(Hash(P ++ Hash("b\0c")))`; with the example primitives the
two differ. -/
theorem C17_dropped_fold_cut_at_nul :
    CleanName.subNames exampleCtx ([97, 46, 98, 0, 99, 46] ++ lit "VRSC") =
        [[97], [98, 0, 99], lit "VRSC"] ∧
      (∀ (H : HashPrims) (displayfilter : Bool),
        CleanName H exampleCtx ([97, 46, 98, 0, 99, 46] ++ lit "VRSC") exampleNamespace
            displayfilter =
          some ([97], H.Hash160 (H.Hash (exampleNamespace ++ H.Hash [98]))) ∧
        specFold H exampleNamespace [[98, 0, 99]] =
          H.Hash160 (H.Hash (exampleNamespace ++ H.Hash [98, 0, 99]))) ∧
      CleanName exampleHash exampleCtx ([97, 46, 98, 0, 99, 46] ++ lit "VRSC")
          exampleNamespace false ≠
        some ([97], specFold exampleHash exampleNamespace [[98, 0, 99]]) := by
  have hs : CleanName.subNames exampleCtx ([97, 46, 98, 0, 99, 46] ++ lit "VRSC") =
      [[97], [98, 0, 99], lit "VRSC"] := by decide
  refine ⟨hs, fun H displayfilter => ⟨?_, rfl⟩, by decide⟩
  unfold CleanName
  rw [hs, body_drop H exampleCtx _ _ (by simp) (by decide)]
  rfl

/-- C18: for a name that the parser rejects, the one-argument `GetID` returns
`Hash160(Hash(""))`, and the two-argument `GetID` under a non-null parent `P` returns
`Hash160(Hash(P ++ Hash("")))` and leaves `P` as it was; so two rejected names get the same
result under every parent, and a result is always returned. -/
theorem C18_rejected_names_share_identifier (H : HashPrims) (cfg : Ctx) (Name : Str)
    (h : CleanName.subNames cfg Name = []) :
    GetID H cfg Name = some (H.Hash160 (H.Hash [])) ∧
      (∀ P : Blob, IsNull P = false →
        GetID2 H cfg Name P = some (H.Hash160 (H.Hash (P ++ H.Hash [])), P)) ∧
      (∀ (Name2 : Str) (P : Blob), CleanName.subNames cfg Name2 = [] →
        GetID H cfg Name2 = GetID H cfg Name ∧ GetID2 H cfg Name2 P = GetID2 H cfg Name P) := by
  refine ⟨GetID_of_rejected H cfg Name h, ?_, ?_⟩
  · intro P hP
    rw [GetID2_of_rejected H cfg Name P h, finish_nil_of_ne_null H P hP]
  · intro Name2 P h2
    rw [GetID_of_rejected H cfg Name h, GetID_of_rejected H cfg Name2 h2,
      GetID2_of_rejected H cfg Name P h, GetID2_of_rejected H cfg Name2 P h2]
    exact ⟨rfl, rfl⟩

/-- Witness of C18 at the rejected names `a/b` and ` x`. -/
theorem C18_rejected_names_share_identifier_witness :
    CleanName.subNames exampleCtx (lit "a/b") = [] ∧
      CleanName.subNames exampleCtx (lit " x") = [] ∧
      GetID exampleHash exampleCtx (lit "a/b") =
        some (exampleHash.Hash160 (exampleHash.Hash [])) ∧
      GetID2 exampleHash exampleCtx (lit " x") exampleNamespace =
        GetID2 exampleHash exampleCtx (lit "a/b") exampleNamespace :=
  have h := C18_rejected_names_share_identifier exampleHash exampleCtx (lit "a/b") (by decide)
  ⟨by decide, by decide, h.1, (h.2.2 (lit " x") exampleNamespace (by decide)).2⟩

/-- C19: `CleanName` does not use its `displayfilter` argument: for every name and every
parent the two values give the same returned string and the same parent. -/
theorem C19_displayfilter_ignored (H : HashPrims) (cfg : Ctx) (Name : Str) (Parent : Blob) :
    CleanName H cfg Name Parent true = CleanName H cfg Name Parent false := by
  unfold CleanName
  rfl

/-- An example for C19: with the default `displayfilter = false` of `ParseSubNames`, a name
with a tab is accepted by `CleanName` also when `CleanName` is called with
`displayfilter = true`, although `ParseSubNames` with `displayfilter = true` rejects it. -/
theorem CleanName_tab_example :
    CleanName exampleHash exampleCtx [97, 9, 98] nullUint160 true =
        some ([97, 9, 98], nullUint160) ∧
      (ParseSubNames exampleCtx [97, 9, 98] [] true false).1 = [] := by
  decide

/-- C20 (the code at a failing input): for the string `a\xE9\xE9` and `ch = 0xE9` the bytes
`0xE9` are negative as `char` and never compare equal to the `unsigned char` 233, so the
loop stops at the last byte and `TrimTrailing` returns the string as it is, ending with
`ch`; the longest prefix that does not end with `ch` is `a`. `TrimLeading` likewise
removes nothing. -/
theorem C20_high_byte_not_trimmed :
    TrimTrailing [97, 233, 233] 233 = [97, 233, 233] ∧
      (TrimTrailing [97, 233, 233] 233).getLast? = some 233 ∧
      TrimTrailing.removeSpaces [97, 233, 233] 233 3 = 2 ∧
      TrimLeading [233, 233, 97] 233 = [233, 233, 97] := by
  decide

end VDXF
